import Mathlib

set_option maxRecDepth 8192

/-!
Verification development for the `ucalc` calculator.

The Rust sources are embedded shallowly:

* machine integers (`i32`, `u32`) are modelled as `ℤ` / `ℕ` together with
  explicit wrapping (`wrap32`, `toU32`) at every place the source performs an
  `as` cast or an unchecked arithmetic operation, and with explicit range
  checks at every place the source uses `checked_mul` / `check_overflow`;
* fallible operations return `Except`;
* loops (`gcd`'s Stein loop, `checked_pow`) become fuelled or well-founded
  recursions; the fuel passed at the call sites is proved sufficient where a
  universal statement depends on it.
-/

/-- Lower bound of `i32`, `-2^31`.  The source calls it `i32::min_value()`. -/
def I32_MIN : ℤ := -2147483648

/-- Upper bound of `i32`, `2^31 - 1` (`i32::max_value()`). -/
def I32_MAX : ℤ := 2147483647

/-- Two's-complement wrap of an integer into the `i32` range
`[-2^31, 2^31)`; models Rust `as i32` casts and release-mode wrapping
arithmetic on `i32`. -/
def wrap32 (z : ℤ) : ℤ := (z + 2147483648) % 4294967296 - 2147483648

/-- The 32-bit representation of an integer as a natural number in
`[0, 2^32)`; models Rust `as u32` casts (and the two's-complement bit
pattern of an `i32`). -/
def toU32 (z : ℤ) : ℕ := (z % 4294967296).toNat

/-- Model of `i32::checked_mul`: the exact product when it fits in `i32`. -/
def checkedMulI32 (a b : ℤ) : Option ℤ :=
  if I32_MIN ≤ a * b ∧ a * b ≤ I32_MAX then some (a * b) else none

/-- Model of `u32::checked_mul`: the exact product when it fits in `u32`. -/
def checkedMulU32 (a b : ℕ) : Option ℕ :=
  if a * b < 2 ^ 32 then some (a * b) else none

/-- Fuelled helper for `trailing_zeros`; fuel 33 is enough for every 32-bit
value (all call sites pass values `< 2^32`). -/
def tzGo : ℕ → ℕ → ℕ
  | 0, _ => 32
  | fuel + 1, n =>
    if n = 0 then 32
    else if n % 2 = 1 then 0
    else tzGo fuel (n / 2) + 1

/-- Model of `u32::trailing_zeros` (Rust returns 32 on zero). -/
def tzN (n : ℕ) : ℕ := tzGo 33 n

/-- Model of `x >> x.trailing_zeros()`: the odd part of a nonzero natural. -/
def oddPart (n : ℕ) : ℕ := n >>> tzN n

/-- One fuelled run of the subtraction loop of Stein's binary gcd from the
source's `gcd`: `while m != 0 { m >>= m.trailing_zeros(); if n > m { swap };
m -= n }`, returning the final `n`.  Fuel `m + n + 1` is sufficient
(`steinLoop_gcd`). -/
def steinLoop : ℕ → ℕ → ℕ → ℕ
  | 0, _, n => n
  | fuel + 1, m, n =>
    if m = 0 then n
    else
      let m1 := oddPart m
      if n > m1 then steinLoop fuel (n - m1) m1
      else steinLoop fuel (m1 - n) n

/-- Model of the source's `fn gcd(m: i32, n: i32) -> i32` (Stein's algorithm
with the sign discipline of the denominator).  All casts and unchecked
`i32` operations of the source are modelled by explicit wraps. -/
def gcdRust (m n : ℤ) : ℤ :=
  if m = 0 ∨ n = 0 then wrap32 ((toU32 m ||| toU32 n : ℕ) : ℤ)
  else if m = I32_MIN ∨ n = I32_MIN then wrap32 (2 ^ tzN (toU32 m ||| toU32 n))
  else
    wrap32 (wrap32 ((steinLoop (m.natAbs + (n.natAbs >>> tzN n.natAbs) + 1)
      m.natAbs (n.natAbs >>> tzN n.natAbs) : ℤ) * 2 ^ tzN (toU32 m ||| toU32 n))
      * Int.sign n)

/-- The `OverflowError` type of `rational.rs`. -/
inductive OverflowError : Type
  | overflowError
deriving DecidableEq

instance {ε α : Type} [DecidableEq ε] [DecidableEq α] : DecidableEq (Except ε α) :=
  fun a b =>
    match a, b with
    | .ok x, .ok y => decidable_of_iff (x = y) (by simp)
    | .error x, .error y => decidable_of_iff (x = y) (by simp)
    | .ok _, .error _ => isFalse (by simp)
    | .error _, .ok _ => isFalse (by simp)

/-- The `Rational` struct of `rational.rs`: `num: i32`, `den: u32`. -/
structure Rational : Type where
  num : ℤ
  den : ℕ
deriving DecidableEq

/-- Model of `impl CheckableOverflow for Rational`: `num > i32::MIN`,
`0 < den ≤ i32::MAX`. -/
def Rational.check_overflow (r : Rational) : Except OverflowError Rational :=
  if I32_MIN < r.num ∧ 0 < r.den ∧ (r.den : ℤ) ≤ I32_MAX then .ok r
  else .error .overflowError

/-- Model of `Rational::from_integer`. -/
def Rational.from_integer (i : ℤ) : Except OverflowError Rational :=
  if I32_MIN < i then .ok ⟨i, 1⟩ else .error .overflowError

/-- Model of `Rational::new`.  The source `panic!`s on `den = 0`; the model
returns an error there instead, and every theorem about `new` assumes
`den ≠ 0`.  `num / gcd` and `den / gcd` are Rust `i32` divisions
(truncation towards zero, `Int.tdiv`); `as u32` is `toU32`. -/
def Rational.new (num den : ℤ) : Except OverflowError Rational :=
  if den = 0 then .error .overflowError
  else
    let g := gcdRust num den
    Rational.check_overflow ⟨num.tdiv g, toU32 (den.tdiv g)⟩

/-- Model of `Rational::recip`.  The casts `self.den as i32`,
`self.num as u32`, and the release-mode wrapping negations are modelled with
`wrap32` / `toU32`. -/
def Rational.recip (r : Rational) : Except OverflowError Rational :=
  if 0 < r.num then .ok ⟨wrap32 (r.den : ℤ), toU32 r.num⟩
  else
    if r.num ≠ 0 then .ok ⟨wrap32 (-(wrap32 (r.den : ℤ))), toU32 (wrap32 (-r.num))⟩
    else .error .overflowError

/-- Model of `Rational::is_integer`. -/
def Rational.is_integer (r : Rational) : Bool := r.den == 1

/-- Model of `Rational::is_negative`. -/
def Rational.is_negative (r : Rational) : Bool := r.num < 0

/-- Model of `impl Neg for Rational` (release-mode wrapping negation). -/
def Rational.neg (r : Rational) : Rational := ⟨wrap32 (-r.num), r.den⟩

/-- Fuelled model of the loop of `checked_pow` from `rational.rs`
(binary exponentiation, every multiplication checked).  Fuel `e` is
sufficient since the exponent halves each iteration. -/
def checkedPowLoop : ℕ → ℤ → ℤ → ℕ → Except OverflowError ℤ
  | 0, acc, _, _ => .ok acc
  | fuel + 1, acc, base, e =>
    if 1 < e then
      match (if e % 2 = 1 then checkedMulI32 acc base else some acc) with
      | none => .error .overflowError
      | some acc2 =>
        match checkedMulI32 base base with
        | none => .error .overflowError
        | some b2 => checkedPowLoop fuel acc2 b2 (e / 2)
    else if e = 1 then
      match checkedMulI32 acc base with
      | none => .error .overflowError
      | some v => .ok v
    else .ok acc

/-- Model of `checked_pow(base, exp)` from `rational.rs` (`exp : u32`). -/
def checkedPow (base : ℤ) (e : ℕ) : Except OverflowError ℤ :=
  checkedPowLoop (e + 1) 1 base e

/-- Model of `Rational::pow` for a strictly positive exponent (the
`exp > 0` branch of the source). -/
def Rational.powPos (r : Rational) (e : ℕ) : Except OverflowError Rational := do
  let num ← checkedPow r.num e
  let den ← checkedPow (wrap32 (r.den : ℤ)) e
  Rational.check_overflow ⟨num, toU32 den⟩

/-- Model of `Rational::pow`.  The source's recursive call `self.pow_r(-exp)`
(a typo for `pow`; `-exp > 0` there) is modelled by `powPos`. -/
def Rational.pow (r : Rational) (e : ℤ) : Except OverflowError Rational :=
  if e ≠ 0 then
    if 0 < e then Rational.powPos r e.toNat
    else
      if e ≠ I32_MIN then (Rational.powPos r (-e).toNat).bind Rational.recip
      else
        if (r.num = 1 ∨ r.num = -1) ∧ r.den = 1 then .ok ⟨1, 1⟩
        else .error .overflowError
  else .ok ⟨1, 1⟩

/-- Model of `Rational::mul`: direct strategy first, then the pre-division
strategy on overflow.  The source's `gcd(np, dp)`, `gcd(self.den, other.num)`
mix `i32` and `u32`; the `u32` values are cast with `wrap32` (`as i32`), and
`dp / gcd as u32` divides the `u32` `dp` by `gcd as u32` (`toU32`).  The
identifier `n1d1` in the source is the obvious typo for `n1d2`. -/
def Rational.mul (a b : Rational) : Except OverflowError Rational :=
  match checkedMulI32 a.num b.num, checkedMulU32 a.den b.den with
  | some np, some dp =>
    let g := gcdRust np (wrap32 (dp : ℤ))
    Rational.check_overflow ⟨np.tdiv g, dp / toU32 g⟩
  | _, _ =>
    let n1d2 := gcdRust a.num (wrap32 (b.den : ℤ))
    let n2d1 := gcdRust (wrap32 (a.den : ℤ)) b.num
    match checkedMulI32 (a.num.tdiv n1d2) (b.num.tdiv n2d1),
      checkedMulI32 ((wrap32 (a.den : ℤ)).tdiv n2d1) ((wrap32 (b.den : ℤ)).tdiv n1d2) with
    | some nn, some dd => Rational.check_overflow ⟨nn, toU32 dd⟩
    | _, _ => .error .overflowError

/-- Model of `Rational::div` (`self.mul(try!(other.recip()))`). -/
def Rational.div (a b : Rational) : Except OverflowError Rational :=
  (Rational.recip b).bind (Rational.mul a)

/-- Model of `Rational::add`.  `self.den as i32` casts are `wrap32`; the
unchecked `i32` multiplications and the addition in the numerator wrap
(release mode). -/
def Rational.add (a b : Rational) : Except OverflowError Rational :=
  let dgcd := toU32 (gcdRust (wrap32 (a.den : ℤ)) (wrap32 (b.den : ℤ)))
  let aq := a.den / dgcd
  let bq := b.den / dgcd
  match checkedMulU32 a.den bq with
  | none => .error .overflowError
  | some denom =>
    Rational.check_overflow
      ⟨wrap32 (wrap32 (a.num * wrap32 (bq : ℤ)) + wrap32 (b.num * wrap32 (aq : ℤ))), denom⟩

/-- Model of `Rational::sub` (`self.add(-other)`). -/
def Rational.sub (a b : Rational) : Except OverflowError Rational :=
  Rational.add a (Rational.neg b)

/-- The documented invariant of `Rational` together with the spec's
reducedness clause: bounded numerator and denominator, positive denominator,
`num ≠ -2^31`, and `gcd(|num|, den) = 1`. -/
def Rational.Inv (r : Rational) : Prop :=
  I32_MIN < r.num ∧ r.num ≤ I32_MAX ∧ 0 < r.den ∧ (r.den : ℤ) ≤ I32_MAX ∧
    Nat.gcd r.num.natAbs r.den = 1

/-- The bounds part of the invariant alone (no reducedness). -/
def Rational.BInv (r : Rational) : Prop :=
  I32_MIN < r.num ∧ r.num ≤ I32_MAX ∧ 0 < r.den ∧ (r.den : ℤ) ≤ I32_MAX

instance (r : Rational) : Decidable r.Inv := by
  unfold Rational.Inv; infer_instance

instance (r : Rational) : Decidable r.BInv := by
  unfold Rational.BInv; infer_instance

/-!
Floating-point model.  `f64` values are modelled by their IEEE-754
classification — NaN, signed infinity, or a finite value — with finite values
carried exactly as rationals.  Rounding of finite arithmetic and the values of
irrational results (transcendental functions, non-integer powers) are not
modelled; no claim below depends on them.  NaN/infinity production and
propagation, which several claims do depend on, follow IEEE 754.
-/

/-- Model of `f64`: NaN, infinity (with sign bit), or an exact finite value. -/
inductive F : Type
  | nan
  | inf (neg : Bool)
  | fin (q : ℚ)
deriving DecidableEq

/-- Model of `f64::is_nan`. -/
def F.isNan : F → Bool
  | .nan => true
  | _ => false

/-- IEEE negation of a float. -/
def fneg : F → F
  | .nan => .nan
  | .inf b => .inf (!b)
  | .fin q => .fin (-q)

/-- IEEE addition (finite part exact, rounding not modelled). -/
def fadd : F → F → F
  | .nan, _ => .nan
  | _, .nan => .nan
  | .inf a, .inf b => if a = b then .inf a else .nan
  | .inf a, .fin _ => .inf a
  | .fin _, .inf b => .inf b
  | .fin a, .fin b => .fin (a + b)

/-- IEEE subtraction, `x - y = x + (-y)`. -/
def fsub (x y : F) : F := fadd x (fneg y)

/-- IEEE multiplication (finite part exact). -/
def fmul : F → F → F
  | .nan, _ => .nan
  | _, .nan => .nan
  | .inf a, .inf b => .inf (xor a b)
  | .inf a, .fin q => if q = 0 then .nan else .inf (xor a (q < 0))
  | .fin q, .inf b => if q = 0 then .nan else .inf (xor (q < 0) b)
  | .fin a, .fin b => .fin (a * b)

/-- IEEE division (finite part exact; signed zero is not modelled, the
single zero behaves as `+0`). -/
def fdiv : F → F → F
  | .nan, _ => .nan
  | _, .nan => .nan
  | .inf _, .inf _ => .nan
  | .inf a, .fin q => .inf (xor a (q < 0))
  | .fin _, .inf _ => .fin 0
  | .fin a, .fin b =>
    if b = 0 then (if a = 0 then .nan else .inf (a < 0)) else .fin (a / b)

/-- Truncation of a rational towards zero. -/
def ratTrunc (q : ℚ) : ℤ := q.num.tdiv (q.den : ℤ)

/-- Model of `f64::fract` (`fract` of an infinity is NaN). -/
def ffract : F → F
  | .nan => .nan
  | .inf _ => .nan
  | .fin q => .fin (q - (ratTrunc q : ℚ))

/-- Model of `f64::abs`. -/
def fabs : F → F
  | .nan => .nan
  | .inf _ => .inf false
  | .fin q => .fin |q|

/-- IEEE `<` (false whenever an operand is NaN). -/
def flt : F → F → Bool
  | .nan, _ => false
  | _, .nan => false
  | .inf true, .inf true => false
  | .inf true, _ => true
  | .inf false, _ => false
  | .fin _, .inf b => !b
  | .fin a, .fin b => a < b

/-- IEEE `x > y`. -/
def fgt (x y : F) : Bool := flt y x

/-- IEEE `x ≤ y` (false whenever an operand is NaN). -/
def fle (x y : F) : Bool :=
  match x, y with
  | .nan, _ => false
  | _, .nan => false
  | _, _ => !flt y x

/-- IEEE `x == 0.0` (NaN compares false). -/
def feqZero : F → Bool
  | .fin q => q == 0
  | _ => false

/-- IEEE `x != 0.0` (NaN compares true). -/
def fneZero (x : F) : Bool := !feqZero x

/-- Model of a Rust `f64 as i32` cast: truncate towards zero, saturating. -/
def ftoI32 : F → ℤ
  | .nan => 0
  | .inf b => if b then I32_MIN else I32_MAX
  | .fin q =>
    if (ratTrunc q) < I32_MIN then I32_MIN
    else if I32_MAX < (ratTrunc q) then I32_MAX
    else ratTrunc q

/-- Does the rational represent a mathematical integer? -/
def isIntQ (q : ℚ) : Bool := q.den == 1

/-- Model of `f64::powi` (exact on finite rational bases; never NaN on a
non-NaN finite base). -/
def fpowi : F → ℤ → F
  | .nan, _ => .nan
  | .inf b, e =>
    if e = 0 then .fin 1
    else if 0 < e then .inf (b && e % 2 = 1) else .fin 0
  | .fin q, e =>
    if 0 ≤ e then .fin (q ^ e.toNat)
    else if q = 0 then .inf false
    else .fin (q ^ e)

/-- Placeholder finite value for `x^y` with `x > 0` and `y` a non-integer
(the true value is irrational in general; no claim depends on it). -/
def powPlaceholder (a q : ℚ) : ℚ := a ^ q.num

/-- Model of `f64::powf` following the IEEE-754 `pow` special cases that the
claims depend on (in particular `pow(x, y) = NaN` for finite `x < 0` and
non-integer `y`, and `pow(x, ±0) = 1`, `pow(1, y) = 1` even for NaN
operands).  Finite non-integer powers of positive bases are represented by a
placeholder finite value. -/
def fpowf : F → F → F
  | x, .fin q =>
    if q = 0 then .fin 1
    else
      match x with
      | .nan => .nan
      | .inf b =>
        if 0 < q then
          if b then (if isIntQ q && q.num % 2 = 1 then .inf true else .inf false)
          else .inf false
        else .fin 0
      | .fin a =>
        if isIntQ q then
          if a = 0 && q < 0 then .inf false else .fin (a ^ q.num)
        else if a < 0 then .nan
        else if a = 0 then (if q < 0 then .inf false else .fin 0)
        else .fin (powPlaceholder a q)
  | .fin a, .nan => if a = 1 then .fin 1 else .nan
  | _, .nan => .nan
  | .nan, .inf _ => .nan
  | .inf _, .inf b => if b then .fin 0 else .inf false
  | .fin a, .inf b =>
    if a = 1 ∨ a = -1 then .fin 1
    else if (|a| < 1) = b then .inf false
    else .fin 0

/-- Model of `Rational`'s `AsFloat` impl.  The trait impl is referenced by
`value.rs` but its definition is not in the sources; a rational converts to
the float `num / den` (rounding not modelled). -/
def Rational.as_float (r : Rational) : F := .fin ((r.num : ℚ) / (r.den : ℚ))

/-- The `ArithmeticError` enum of `value.rs`.  The declaration in `value.rs`
lists three variants, but `uval.rs` and `main.rs` both use a fourth variant
`UnitError`, which is included here. -/
inductive ArithmeticError : Type
  | divideByZeroError
  | domainError
  | overflowError
  | unitError
deriving DecidableEq

/-- The `Value` enum of `value.rs`. -/
inductive Value : Type
  | Inexact (f : F)
  | Exact (r : Rational)
deriving DecidableEq

/-- Model of `impl AsFloat for Value`. -/
def Value.as_float : Value → F
  | .Inexact a => a
  | .Exact r => r.as_float

/-- Model of `Value::from_float` exactly as written in `value.rs` (it
attempts an exact representation as a multiple of 1/8 in `i32` range). -/
def Value.from_float (f : F) : Except ArithmeticError Value :=
  if !f.isNan then
    if fneZero (ffract (fmul f (.fin 8))) then .ok (.Inexact f)
    else
      let num := fmul f (.fin 8)
      if fgt (fabs num) (.fin ((I32_MAX : ℤ) : ℚ)) then .ok (.Inexact f)
      else
        match Rational.new (ftoI32 num) 8 with
        | .ok r => .ok (.Exact r)
        | .error _ => .error .domainError
  else .error .domainError

/-- Modelled from the spec: `Value::from_input` is called by
`uval.rs` but its definition is missing from the sources.  Per spec §4.2 it
tests whether `f * 8` is an integer within `i32` range and if so constructs
`Rational::new(f*8 as i32, 8)`, otherwise stores `Inexact`; NaN is rejected
with `DomainError` as at every construction site. -/
def Value.from_input (f : F) : Except ArithmeticError Value :=
  if !f.isNan then
    if fneZero (ffract (fmul f (.fin 8))) then .ok (.Inexact f)
    else
      let num := fmul f (.fin 8)
      if fgt (fabs num) (.fin ((I32_MAX : ℤ) : ℚ)) then .ok (.Inexact f)
      else
        match Rational.new (ftoI32 num) 8 with
        | .ok r => .ok (.Exact r)
        | .error _ => .error .domainError
  else .error .domainError

/-- Model of `Value::from_inexact`. -/
def Value.from_inexact (f : F) : Except ArithmeticError Value :=
  if !f.isNan then .ok (.Inexact f) else .error .domainError

/-- Model of `Value::get_exact`. -/
def Value.get_exact : Value → Option Rational
  | .Exact a => some a
  | .Inexact _ => none

/-- Model of `Value::as_integer`. -/
def Value.as_integer : Value → Option ℤ
  | .Exact a => if a.is_integer then some a.num else none
  | .Inexact a =>
    if feqZero (ffract a) && fle (fabs a) (.fin ((I32_MAX : ℤ) : ℚ))
    then some (ftoI32 a) else none

/-- Model of `Value::add`. -/
def Value.add (a b : Value) : Except ArithmeticError Value :=
  match a.get_exact, b.get_exact with
  | some x, some y =>
    match Rational.add x y with
    | .ok r => .ok (.Exact r)
    | .error _ => Value.from_inexact (fadd a.as_float b.as_float)
  | _, _ => Value.from_inexact (fadd a.as_float b.as_float)

/-- Model of `Value::sub`. -/
def Value.sub (a b : Value) : Except ArithmeticError Value :=
  match a.get_exact, b.get_exact with
  | some x, some y =>
    match Rational.sub x y with
    | .ok r => .ok (.Exact r)
    | .error _ => Value.from_inexact (fsub a.as_float b.as_float)
  | _, _ => Value.from_inexact (fsub a.as_float b.as_float)

/-- Model of `Value::mul`. -/
def Value.mul (a b : Value) : Except ArithmeticError Value :=
  match a.get_exact, b.get_exact with
  | some x, some y =>
    match Rational.mul x y with
    | .ok r => .ok (.Exact r)
    | .error _ => Value.from_inexact (fmul a.as_float b.as_float)
  | _, _ => Value.from_inexact (fmul a.as_float b.as_float)

/-- Model of `Value::div`. -/
def Value.div (a b : Value) : Except ArithmeticError Value :=
  match a.get_exact, b.get_exact with
  | some x, some y =>
    match Rational.div x y with
    | .ok r => .ok (.Exact r)
    | .error _ => Value.from_inexact (fdiv a.as_float b.as_float)
  | _, _ => Value.from_inexact (fdiv a.as_float b.as_float)

/-- Model of `Value::pow`. -/
def Value.pow (a b : Value) : Except ArithmeticError Value :=
  match a.get_exact with
  | some x =>
    match b.as_integer with
    | some e =>
      match Rational.pow x e with
      | .ok r => .ok (.Exact r)
      | .error _ => Value.from_inexact (fpowi x.as_float e)
    | none => Value.from_inexact (fpowf x.as_float b.as_float)
  | none => Value.from_inexact (fpowf a.as_float b.as_float)

/-- Modelled from the spec: `uval.rs` negates a `Value` (`-self.value`) but
`value.rs` contains no `Neg` impl; per spec §4.2 the operations mirror
`Rational`, so negation negates the payload. -/
def Value.negV : Value → Value
  | .Exact r => .Exact (Rational.neg r)
  | .Inexact f => .Inexact (fneg f)

/-!
Unit layer.  The module `unit.rs` is not among the sources (only its callers
in `uval.rs` are), so the `Unit` type is modelled from spec §4.3: a
fixed-length vector of signed integer exponents over the base dimensions,
with component-wise checked addition/subtraction and checked scalar
multiplication by an integer; overflow of any component is `UnitError`.
The name `UnitVec` is used because `Unit` is taken by Lean. -/

/-- Is an exponent inside the signed 32-bit range (the modelled component
width)? -/
def expInRange (z : ℤ) : Bool := I32_MIN ≤ z && z ≤ I32_MAX

/-- Modelled from the spec: the `Unit` type of the missing `unit.rs`, a
vector of signed exponents over the base dimensions. -/
structure UnitVec : Type where
  exps : List ℤ
deriving DecidableEq

/-- Modelled from the spec: `Unit::zero()`, the dimensionless unit (seven
base dimensions). -/
def UnitVec.zero : UnitVec := ⟨List.replicate 7 0⟩

/-- Modelled from the spec: component-wise checked addition of exponent
vectors; overflow on any component is `UnitError`. -/
def UnitVec.add (u v : UnitVec) : Except ArithmeticError UnitVec :=
  let w := List.zipWith (· + ·) u.exps v.exps
  if w.all expInRange then .ok ⟨w⟩ else .error .unitError

/-- Modelled from the spec: component-wise checked subtraction. -/
def UnitVec.sub (u v : UnitVec) : Except ArithmeticError UnitVec :=
  let w := List.zipWith (· - ·) u.exps v.exps
  if w.all expInRange then .ok ⟨w⟩ else .error .unitError

/-- Modelled from the spec: checked scalar multiplication of a unit by an
exact rational exponent, which must be an integer (`Rational.is_integer`),
otherwise `UnitError`. -/
def UnitVec.mul (u : UnitVec) (e : Rational) : Except ArithmeticError UnitVec :=
  if e.is_integer then
    let w := u.exps.map (· * e.num)
    if w.all expInRange then .ok ⟨w⟩ else .error .unitError
  else .error .unitError

/-- The `UnitValue` struct of `uval.rs`. -/
structure UnitValue : Type where
  value : Value
  unit : UnitVec
deriving DecidableEq

/-- Model of `UnitValue::from_input`. -/
def UnitValue.from_input (f : F) : Except ArithmeticError UnitValue := do
  let v ← Value.from_input f
  return ⟨v, UnitVec.zero⟩

/-- Model of `UnitValue::from_float`. -/
def UnitValue.from_float (f : F) : Except ArithmeticError UnitValue := do
  let v ← Value.from_float f
  return ⟨v, UnitVec.zero⟩

/-- Model of `UnitValue::unitless`. -/
def UnitValue.unitless (a : UnitValue) : Bool := a.unit == UnitVec.zero

/-- Model of `UnitValue::add`. -/
def UnitValue.add (a b : UnitValue) : Except ArithmeticError UnitValue :=
  if a.unit = b.unit then do
    let v ← Value.add a.value b.value
    return ⟨v, a.unit⟩
  else .error .unitError

/-- Model of `UnitValue::sub`. -/
def UnitValue.sub (a b : UnitValue) : Except ArithmeticError UnitValue :=
  if a.unit = b.unit then do
    let v ← Value.sub a.value b.value
    return ⟨v, a.unit⟩
  else .error .unitError

/-- Model of `UnitValue::mul`.  Struct literal fields are evaluated in
textual order (`value` before `unit`), which the `do` sequencing mirrors. -/
def UnitValue.mul (a b : UnitValue) : Except ArithmeticError UnitValue := do
  let v ← Value.mul a.value b.value
  let u ← UnitVec.add a.unit b.unit
  return ⟨v, u⟩

/-- Model of `UnitValue::div`. -/
def UnitValue.div (a b : UnitValue) : Except ArithmeticError UnitValue := do
  let v ← Value.div a.value b.value
  let u ← UnitVec.sub a.unit b.unit
  return ⟨v, u⟩

/-- Model of `UnitValue::pow`.  In the unit-bearing-base branch the `value`
field is evaluated before the `unit` field (textual order of the struct
literal), so a `DomainError` from the value power precedes the unit check. -/
def UnitValue.pow (a b : UnitValue) : Except ArithmeticError UnitValue :=
  if b.unitless then
    if a.unitless then do
      let v ← Value.pow a.value b.value
      return ⟨v, UnitVec.zero⟩
    else
      match b.value.get_exact with
      | some e => do
        let v ← Value.pow a.value b.value
        let u ← UnitVec.mul a.unit e
        return ⟨v, u⟩
      | none => .error .unitError
  else .error .unitError

/-- Model of `impl Neg for UnitValue`. -/
def UnitValue.negU (a : UnitValue) : UnitValue := ⟨Value.negV a.value, a.unit⟩

/-- Model of `impl AsFloat for UnitValue` (referenced by `main.rs`; the impl
itself is not among the sources — it projects the value). -/
def UnitValue.as_float (a : UnitValue) : F := a.value.as_float

/-!
Expression layer, from `main.rs`. -/

/-- The `Expression` enum of `main.rs`.  `Call` stores the resolved callable
(a function from the argument floats to a float). -/
inductive Expression : Type
  | Value (v : UnitValue)
  | Error (e : ArithmeticError)
  | Exp (a b : Expression)
  | Mul (a b : Expression)
  | Div (a b : Expression)
  | Add (a b : Expression)
  | Sub (a b : Expression)
  | Neg (a : Expression)
  | Call (f : List F → F) (args : List Expression)

/-- Model of `make_value` applied to a `Result<UnitValue, ArithmeticError>`
(the `ToValue` impls make the other call sites factor through this one). -/
def make_value (r : Except ArithmeticError UnitValue) : Expression :=
  match r with
  | .ok v => .Value v
  | .error e => .Error e

/-- Model of `input_value` (`make_value` over `UnitValue::from_input`). -/
def input_value (f : F) : Expression := make_value (UnitValue.from_input f)

/-- Model of `make_value` at type `f64` (`ToValue for f64` uses
`UnitValue::from_float`). -/
def make_value_float (f : F) : Expression := make_value (UnitValue.from_float f)

/-- Model of `Expression::is_known`. -/
def Expression.is_known : Expression → Bool
  | .Value _ => true
  | _ => false

/-- Model of `Expression::is_error`. -/
def Expression.is_error : Expression → Bool
  | .Error _ => true
  | _ => false

/-- Model of `Expression::extract_float`.  The source `panic!`s on a
non-`Value`; the folder only calls it under an `all_known` guard, and the
model returns NaN in the unreachable case. -/
def Expression.extract_float : Expression → F
  | .Value a => a.as_float
  | _ => F.nan

/-- Model of `Calculator::simplify1`, with the source's pattern-match order
preserved (compute on two `Value`s; otherwise a right `Error` wins, then a
left `Error`).  In the unreachable `expect("no error found")` case of `Call`
the expression is returned unchanged. -/
def simplify1 (expr : Expression) : Expression :=
  match expr with
  | .Exp (.Value a) (.Value b) => make_value (UnitValue.pow a b)
  | .Exp _ (.Error e) => .Error e
  | .Exp (.Error e) _ => .Error e
  | .Mul (.Value a) (.Value b) => make_value (UnitValue.mul a b)
  | .Mul _ (.Error e) => .Error e
  | .Mul (.Error e) _ => .Error e
  | .Div (.Value a) (.Value b) => make_value (UnitValue.div a b)
  | .Div _ (.Error e) => .Error e
  | .Div (.Error e) _ => .Error e
  | .Add (.Value a) (.Value b) => make_value (UnitValue.add a b)
  | .Add _ (.Error e) => .Error e
  | .Add (.Error e) _ => .Error e
  | .Sub (.Value a) (.Value b) => make_value (UnitValue.sub a b)
  | .Sub _ (.Error e) => .Error e
  | .Sub (.Error e) _ => .Error e
  | .Neg (.Value a) => make_value (.ok (UnitValue.negU a))
  | .Neg (.Neg a) => a
  | .Neg (.Error e) => .Error e
  | .Call f args =>
    if args.all Expression.is_known then
      make_value_float (f (args.map Expression.extract_float))
    else if args.any Expression.is_error then
      match args.find? Expression.is_error with
      | some (.Error e) => .Error e
      | _ => .Call f args
    else .Call f args
  | e => e

/-- The `CalculatorError` enum of `main.rs`. -/
inductive CalculatorError : Type
  | divideByZeroError
  | domainError
  | overflowError
  | unitError
  | syntaxError
deriving DecidableEq

/-- Model of `impl From<ArithmeticError> for CalculatorError`. -/
def CalculatorError.fromArith : ArithmeticError → CalculatorError
  | .divideByZeroError => .divideByZeroError
  | .domainError => .domainError
  | .overflowError => .overflowError
  | .unitError => .unitError

/-!
Parser layer, from `main.rs`.  The nom combinators are modelled by plain
recursive-descent parsers over `List Char` returning `Option (α × rest)`
(`none` covers both nom `Error` and `Incomplete`, which `Calculator::run`
treats alike as a syntax error).  The mutually recursive grammar carries a
fuel argument, decremented on every call; `calculate` passes fuel that is
ample for its input, which suffices because the claims about the parser are
about concrete inputs. -/

/-- Parsers over character lists. -/
def P (α : Type) : Type := List Char → Option (α × List Char)

/-- Membership in nom's `multispace` class. -/
def isWS (c : Char) : Bool := c == ' ' || c == '\t' || c == '\n' || c == '\r'

/-- Drop optional leading whitespace (`opt!(multispace)`). -/
def dropWS (s : List Char) : List Char := s.dropWhile isWS

/-- Is there at least one leading whitespace character (`multispace`)? -/
def hasWS : List Char → Bool
  | c :: _ => isWS c
  | [] => false

/-- Model of the `decimal` parser: `many1!(one_of!("0123456789_"))`,
returning the consumed characters. -/
def pDecimal : P (List Char) := fun s =>
  let t := s.takeWhile (fun c => c.isDigit || c == '_')
  if t.isEmpty then none else some (t, s.drop t.length)

/-- The optional exponent part of a number
(`(e|E) (+|-)? decimal`, with full backtracking on failure). -/
def pExpPart (s : List Char) : List Char × List Char :=
  match s with
  | c :: r =>
    if c = 'e' ∨ c = 'E' then
      match r with
      | d :: r2 =>
        if d = '+' ∨ d = '-' then
          match pDecimal r2 with
          | some (ds, r3) => (c :: d :: ds, r3)
          | none => ([], s)
        else
          match pDecimal r with
          | some (ds, r3) => (c :: ds, r3)
          | none => ([], s)
      | [] => ([], s)
    else ([], s)
  | [] => ([], s)

/-- Model of `recognize_number1`: digits, an optional decimal point with
optional digits, and an optional exponent. -/
def pNumber1 : P (List Char) := fun s =>
  match pDecimal s with
  | none => none
  | some (d1, s1) =>
    let fr :=
      match s1 with
      | '.' :: r =>
        (match pDecimal r with
         | some (d2, r2) => ('.' :: d2, r2)
         | none => (['.'], r))
      | _ => (([] : List Char), s1)
    let ex := pExpPart fr.2
    some (d1 ++ fr.1 ++ ex.1, ex.2)

/-- Model of `recognize_number2`: a decimal point followed by digits and an
optional exponent. -/
def pNumber2 : P (List Char) := fun s =>
  match s with
  | '.' :: r =>
    (match pDecimal r with
     | some (d, r2) =>
       let ex := pExpPart r2
       some ('.' :: d ++ ex.1, ex.2)
     | none => none)
  | _ => none

/-- Numeric value of a digit string. -/
def digitsToNat (cs : List Char) : ℕ :=
  cs.foldl (fun acc c => 10 * acc + (c.toNat - 48)) 0

/-- Apply an optional decimal exponent to a parsed mantissa; fails unless the
remaining characters are exactly the exponent digits. -/
def applyExponent (base : ℚ) (neg : Bool) (ds : List Char) : Option ℚ :=
  let d := ds.takeWhile Char.isDigit
  if d.isEmpty || d.length ≠ ds.length then none
  else some (if neg then base / 10 ^ digitsToNat d else base * 10 ^ digitsToNat d)

/-- Remaining part of `parseFloat` after splitting off integral and
fractional digits. -/
def parseFloatExp (ip fp : List Char) (s : List Char) : Option ℚ :=
  if ip.isEmpty ∧ fp.isEmpty then none
  else
    let base : ℚ := (digitsToNat (ip ++ fp) : ℚ) / ((10 : ℚ) ^ fp.length)
    match s with
    | [] => some base
    | c :: r =>
      if c = 'e' ∨ c = 'E' then
        match r with
        | '+' :: r2 => applyExponent base false r2
        | '-' :: r2 => applyExponent base true r2
        | r2 => applyExponent base false r2
      else none

/-- Model of Rust's `str::parse::<f64>` on the strings produced by the number
recognizers (underscores already stripped): decimal mantissa with optional
fraction and exponent, read exactly (rounding to binary `f64` is not
modelled). -/
def parseFloat (cs : List Char) : Option ℚ :=
  let ip := cs.takeWhile Char.isDigit
  let s1 := cs.drop ip.length
  match s1 with
  | '.' :: r =>
    let fp := r.takeWhile Char.isDigit
    parseFloatExp ip fp (r.drop fp.length)
  | _ => parseFloatExp ip [] s1

/-- Model of the `number` parser: one of the two recognized forms (the
second with a zero prepended), underscores stripped, parsed as a float.
When the first recognizer succeeds but parsing fails, the alternative is not
retried (the `alt!` sits inside `map_res!`). -/
def pNumber : P F := fun s =>
  match pNumber1 s with
  | some (cs, r) =>
    (match parseFloat (cs.filter (fun c => c ≠ '_')) with
     | some q => some (.fin q, r)
     | none => none)
  | none =>
    match pNumber2 s with
    | some (cs, r) =>
      (match parseFloat (('0' :: cs).filter (fun c => c ≠ '_')) with
       | some q => some (.fin q, r)
       | none => none)
    | none => none

/-- Finite float standing for the `f64` constant `pi` (the exact binary
value is irrelevant to the claims; only finiteness matters). -/
def piF : F := .fin (3141592653589793 / 1000000000000000)

/-- Finite float standing for the `f64` constant `e`. -/
def eF : F := .fin (2718281828459045 / 1000000000000000)

/-- Model of `Calculator::get_numerical_constant`. -/
def get_numerical_constant (cs : List Char) : Option F :=
  if String.mk cs = "e" then some eF
  else if String.mk cs = "pi" then some piF
  else none

/-- Modelled from the spec: the unit registry `units::get` lives in the
out-of-scope `units.rs` (an external collaborator per spec §1/§6).  Unit
names match `[A-Za-z][A-Za-z0-9_]*` (spec §6), so the claims' inputs, which
contain no letters, never resolve a unit; the registry is modelled as
empty. -/
def unitsGet (_ : String) : Option UnitValue := none

/-- Model of `Calculator::get_unit`. -/
def get_unit (cs : List Char) : Option UnitValue := unitsGet (String.mk cs)

/-- Placeholder for `f64::sin` (transcendental values are not modelled; no
claim depends on them). -/
def fsin (_ : F) : F := F.nan

/-- Placeholder for `f64::cos`. -/
def fcos (_ : F) : F := F.nan

/-- Placeholder for `f64::tan`. -/
def ftan (_ : F) : F := F.nan

/-- Placeholder for `f64::atan2`. -/
def fatan2 (_ _ : F) : F := F.nan

/-- Model of `get_unary_function`. -/
def get_unary_function (cs : List Char) : Option (F → F) :=
  if String.mk cs = "sin" then some fsin
  else if String.mk cs = "cos" then some fcos
  else if String.mk cs = "tan" then some ftan
  else none

/-- Model of `get_function` (unary functions first, then `atan2`; unary
callables index `a[0]`, `atan2` indexes `a[0]`, `a[1]`; the out-of-bounds
panic is unreachable since argument lists are nonempty). -/
def get_function (cs : List Char) : Option (List F → F) :=
  match get_unary_function cs with
  | some f => some (fun a => f (a.getD 0 F.nan))
  | none =>
    if String.mk cs = "atan2" then some (fun a => fatan2 (a.getD 0 F.nan) (a.getD 1 F.nan))
    else none

mutual

/-- Model of the `parens` parser: a parenthesized expression, or a function
name applied to a parenthesized nonempty comma-separated argument list. -/
def pParens : ℕ → P Expression
  | 0 => fun _ => none
  | fuel + 1 => fun s =>
    match s with
    | '(' :: r =>
      (match pExpr fuel (dropWS r) with
       | some (e, r2) =>
         (match dropWS r2 with
          | ')' :: r3 => some (e, r3)
          | _ => none)
       | none => none)
    | _ =>
      let name := s.takeWhile Char.isAlphanum
      if name.isEmpty then none
      else
        match get_function name with
        | none => none
        | some f =>
          match s.drop name.length with
          | '(' :: r =>
            (match pExpr fuel (dropWS r) with
             | some (e1, r2) =>
               (match pArgsTail fuel [e1] r2 with
                | some (args, r3) =>
                  (match dropWS r3 with
                   | ')' :: r4 => some (simplify1 (.Call f args), r4)
                   | _ => none)
                | none => none)
             | none => none)
          | _ => none

/-- Tail of `separated_nonempty_list!`: further `ws? ',' ws? expr` items. -/
def pArgsTail : ℕ → List Expression → P (List Expression)
  | 0 => fun _ _ => none
  | fuel + 1 => fun acc s =>
    match dropWS s with
    | ',' :: r =>
      (match pExpr fuel (dropWS r) with
       | some (e, r2) => pArgsTail fuel (acc ++ [e]) r2
       | none => some (acc, s))
    | _ => some (acc, s)

/-- Model of the `atom` parser. -/
def pAtom : ℕ → P Expression
  | 0 => fun _ => none
  | fuel + 1 => fun s =>
    match pParens fuel s with
    | some x => some x
    | none =>
      match pNumber s with
      | some (f, r) => some (input_value f, r)
      | none =>
        let al := s.takeWhile Char.isAlpha
        match (if al.isEmpty then none else get_numerical_constant al) with
        | some f => some (make_value_float f, s.drop al.length)
        | none =>
          let un := s.takeWhile (fun c => c.isAlphanum || c == '_')
          match (if un.isEmpty then none else get_unit un) with
          | some uv => some (.Value uv, s.drop un.length)
          | none => none

/-- Model of the `imul` parser: an atom followed by adjacent atoms, folded
through `simplify1 ∘ Mul`. -/
def pImul : ℕ → P Expression
  | 0 => fun _ => none
  | fuel + 1 => fun s =>
    match pAtom fuel s with
    | some (first, r) => pImulTail fuel first r
    | none => none

/-- Tail of `imul`'s `many0!(atom)`. -/
def pImulTail : ℕ → Expression → P Expression
  | 0 => fun _ _ => none
  | fuel + 1 => fun acc s =>
    match pAtom fuel s with
    | some (a, r) => pImulTail fuel (simplify1 (.Mul acc a)) r
    | none => some (acc, s)

/-- Model of the `unary` parser: `exp`, or a sign followed by a unary
value. -/
def pUnary : ℕ → P Expression
  | 0 => fun _ => none
  | fuel + 1 => fun s =>
    match pExp fuel s with
    | some x => some x
    | none =>
      match s with
      | c :: r =>
        if c = '+' ∨ c = '-' then
          match pUnary fuel (dropWS r) with
          | some (v, r2) =>
            if c = '-' then some (simplify1 (.Neg v), r2) else some (v, r2)
          | none => none
        else none
      | [] => none

/-- Model of the `exp` parser: `imul`, optionally followed by `^` and a
unary value (right associative). -/
def pExp : ℕ → P Expression
  | 0 => fun _ => none
  | fuel + 1 => fun s =>
    match pImul fuel s with
    | some (lhs, r) =>
      (match dropWS r with
       | '^' :: r2 =>
         (match pUnary fuel (dropWS r2) with
          | some (b, r3) => some (simplify1 (.Exp lhs b), r3)
          | none => some (lhs, r))
       | _ => some (lhs, r))
    | none => none

/-- Model of the `facterm` parser: `ws? '*'`, `ws? '/'`, or mandatory
whitespace followed by a character other than `+`/`-` (implicit `*`), then a
unary value. -/
def pFacterm : ℕ → P (Char × Expression)
  | 0 => fun _ => none
  | fuel + 1 => fun s =>
    let r1 := dropWS s
    let op : Option (Char × List Char) :=
      match r1 with
      | '*' :: r2 => some ('*', r2)
      | '/' :: r2 => some ('/', r2)
      | c :: _ =>
        if hasWS s ∧ c ≠ '+' ∧ c ≠ '-' then some ('*', r1) else none
      | [] => none
    match op with
    | some (o, r) =>
      (match pUnary fuel (dropWS r) with
       | some (v, r2) => some ((o, v), r2)
       | none => none)
    | none => none

/-- Model of the `fac` parser: a unary value folded with factor terms. -/
def pFac : ℕ → P Expression
  | 0 => fun _ => none
  | fuel + 1 => fun s =>
    match pUnary fuel s with
    | some (first, r) => pFacTail fuel first r
    | none => none

/-- Tail of `fac`'s `many0!(facterm)` fold (`/` builds `Div`, anything else
`Mul`). -/
def pFacTail : ℕ → Expression → P Expression
  | 0 => fun _ _ => none
  | fuel + 1 => fun acc s =>
    match pFacterm fuel s with
    | some ((o, v), r) =>
      pFacTail fuel (simplify1 (if o = '/' then .Div acc v else .Mul acc v)) r
    | none => some (acc, s)

/-- Model of the `expr` parser: a factor folded with `+`/`-` terms. -/
def pExpr : ℕ → P Expression
  | 0 => fun _ => none
  | fuel + 1 => fun s =>
    match pFac fuel s with
    | some (first, r) => pExprTail fuel first r
    | none => none

/-- Tail of `expr`'s `many0!` fold (`-` builds `Sub`, anything else
`Add`). -/
def pExprTail : ℕ → Expression → P Expression
  | 0 => fun _ _ => none
  | fuel + 1 => fun acc s =>
    match dropWS s with
    | c :: r =>
      if c = '+' ∨ c = '-' then
        match pFac fuel (dropWS r) with
        | some (v, r2) =>
          pExprTail fuel (simplify1 (if c = '-' then .Sub acc v else .Add acc v)) r2
        | none => some (acc, s)
      else some (acc, s)
    | [] => some (acc, s)

end

/-- Model of the `input` parser: `ws? expr ws? '?'`. -/
def pInput (fuel : ℕ) : P Expression := fun s =>
  match pExpr fuel (dropWS s) with
  | some (e, r) =>
    (match dropWS r with
     | '?' :: r2 => some (e, r2)
     | _ => none)
  | none => none

/-- Model of `Calculator::calculate` / `Calculator::run`: append the `?`
sentinel, parse, and lift an embedded `Error` into `CalculatorError` (any
parse failure is a `SyntaxError`). -/
def calculate (input : String) : Except CalculatorError Expression :=
  let cs := input.data ++ ['?']
  match pInput (16 * cs.length + 64) cs with
  | some (val, _) =>
    (match val with
     | .Error a => .error (CalculatorError.fromArith a)
     | v => .ok v)
  | none => .error .syntaxError

/-!
Arithmetic lemmas about the 32-bit casts. -/

theorem wrap32_mem (z : ℤ) : I32_MIN ≤ wrap32 z ∧ wrap32 z ≤ I32_MAX := by
  unfold wrap32 I32_MIN I32_MAX
  omega

theorem wrap32_id (z : ℤ) (h1 : I32_MIN ≤ z) (h2 : z ≤ I32_MAX) : wrap32 z = z := by
  unfold wrap32 at *
  unfold I32_MIN I32_MAX at *
  omega

theorem toU32_ofNat (n : ℕ) (h : n < 2 ^ 32) : toU32 (n : ℤ) = n := by
  unfold toU32
  omega

theorem toU32_i32 (z : ℤ) (h1 : I32_MIN ≤ z) (h2 : z ≤ I32_MAX) :
    toU32 z = if 0 ≤ z then z.natAbs else (2 ^ 32 - z.natAbs : ℕ) := by
  unfold toU32 I32_MIN I32_MAX at *
  split <;> omega

theorem toU32_eq_zero_iff (z : ℤ) (h1 : I32_MIN ≤ z) (h2 : z ≤ I32_MAX) :
    toU32 z = 0 ↔ z = 0 := by
  unfold toU32 I32_MIN I32_MAX at *
  omega

theorem wrap32_toU32 (z : ℤ) (h1 : I32_MIN ≤ z) (h2 : z ≤ I32_MAX) :
    wrap32 ((toU32 z : ℕ) : ℤ) = z := by
  unfold wrap32 toU32 I32_MIN I32_MAX at *
  omega

/-!
Characterization of `tzN` (trailing zeros). -/

/-- Exactly `t` trailing zero bits. -/
def IsTzAt (n t : ℕ) : Prop := 2 ^ t ∣ n ∧ ¬ 2 ^ (t + 1) ∣ n

theorem tzGo_spec : ∀ fuel n, n ≠ 0 → n < 2 ^ fuel → IsTzAt n (tzGo fuel n) := by
  intro fuel
  induction fuel with
  | zero => intro n h0 h1; omega
  | succ f ih =>
    intro n h0 h1
    unfold tzGo
    simp only [h0, if_false]
    by_cases hodd : n % 2 = 1
    · simp only [hodd, if_true]
      constructor
      · simp
      · intro hdvd
        rcases hdvd with ⟨k, hk⟩
        omega
    · simp only [hodd, if_false]
      have h2 : n / 2 ≠ 0 := by omega
      have h3 : n / 2 < 2 ^ f := by
        have : 2 ^ (f + 1) = 2 ^ f * 2 := by ring
        omega
      obtain ⟨hd, hnd⟩ := ih (n / 2) h2 h3
      have hne : 2 * (n / 2) = n := by omega
      constructor
      · have hd2 : 2 * 2 ^ tzGo f (n / 2) ∣ 2 * (n / 2) := mul_dvd_mul_left 2 hd
        rw [hne] at hd2
        have hrw : 2 * 2 ^ tzGo f (n / 2) = 2 ^ (tzGo f (n / 2) + 1) := by ring
        rwa [hrw] at hd2
      · intro hdvd
        apply hnd
        have h2dvd : 2 ∣ n := by omega
        have hiff := Nat.dvd_div_iff_mul_dvd (a := 2 ^ (tzGo f (n / 2) + 1)) h2dvd
        rw [hiff]
        have hrw : 2 * 2 ^ (tzGo f (n / 2) + 1) = 2 ^ (tzGo f (n / 2) + 1 + 1) := by ring
        rw [hrw]
        exact hdvd

theorem isTzAt_unique {n s t : ℕ} (hs : IsTzAt n s) (ht : IsTzAt n t) : s = t := by
  by_contra hne
  rcases Nat.lt_or_ge s t with h | h
  · exact hs.2 (dvd_trans (pow_dvd_pow 2 (by omega)) ht.1)
  · have : s ≠ t := hne
    have hlt : t < s := by omega
    exact ht.2 (dvd_trans (pow_dvd_pow 2 (by omega)) hs.1)

theorem tzN_spec (n : ℕ) (h0 : n ≠ 0) (h1 : n < 2 ^ 33) : IsTzAt n (tzN n) :=
  tzGo_spec 33 n h0 h1

theorem tzN_eq_of {n t : ℕ} (h : IsTzAt n t) (h0 : n ≠ 0) (h1 : n < 2 ^ 33) :
    tzN n = t :=
  isTzAt_unique (tzN_spec n h0 h1) h

theorem isTzAt_pow_mul (t b : ℕ) (hb : b % 2 = 1) : IsTzAt (2 ^ t * b) t := by
  constructor
  · exact Dvd.intro b rfl
  · intro hdvd
    rcases hdvd with ⟨k, hk⟩
    have hpos : 0 < 2 ^ t := Nat.pos_pow_of_pos t (by omega)
    have hk2 : 2 ^ t * b = 2 ^ t * (2 * k) := by
      rw [hk, pow_succ]
      ring
    have h2 : b = 2 * k := Nat.eq_of_mul_eq_mul_left hpos hk2
    omega

theorem tzN_pow_mul (t b : ℕ) (hb : b % 2 = 1) (h1 : 2 ^ t * b < 2 ^ 33) :
    tzN (2 ^ t * b) = t :=
  tzN_eq_of (isTzAt_pow_mul t b hb)
    (Nat.mul_ne_zero (pow_ne_zero t (by omega)) (by omega)) h1

theorem oddPart_eq_div (n : ℕ) : oddPart n = n / 2 ^ tzN n := by
  unfold oddPart
  exact Nat.shiftRight_eq_div_pow n (tzN n)

theorem oddPart_spec (n : ℕ) (h0 : n ≠ 0) (h1 : n < 2 ^ 33) :
    n = 2 ^ tzN n * oddPart n ∧ oddPart n % 2 = 1 := by
  obtain ⟨hd, hnd⟩ := tzN_spec n h0 h1
  rw [oddPart_eq_div]
  constructor
  · exact (Nat.mul_div_cancel' hd).symm
  · by_contra hodd
    apply hnd
    have h2 : 2 ∣ n / 2 ^ tzN n := by omega
    rcases h2 with ⟨k, hk⟩
    have hn : n = 2 ^ tzN n * (2 * k) := by
      conv_lhs => rw [(Nat.mul_div_cancel' hd).symm]
      rw [hk]
    exact ⟨k, hn.trans (by rw [pow_succ]; ring)⟩

theorem oddPart_le (n : ℕ) : oddPart n ≤ n := by
  rw [oddPart_eq_div]
  exact Nat.div_le_self n _

theorem oddPart_ne_zero (n : ℕ) (h0 : n ≠ 0) (h1 : n < 2 ^ 33) : oddPart n ≠ 0 := by
  obtain ⟨heq, hodd⟩ := oddPart_spec n h0 h1
  omega

theorem two_pow_succ_dvd_iff (x k : ℕ) :
    2 ^ (k + 1) ∣ x ↔ x % 2 = 0 ∧ 2 ^ k ∣ x / 2 := by
  constructor
  · rintro ⟨m, hm⟩
    have hx : x = 2 * (2 ^ k * m) := by rw [hm, pow_succ]; ring
    constructor
    · omega
    · exact ⟨m, by omega⟩
  · rintro ⟨heven, ⟨m, hm⟩⟩
    refine ⟨m, ?_⟩
    have hx : x = 2 * (x / 2) := by omega
    rw [hx, hm, pow_succ]
    ring

theorem two_pow_dvd_or (k : ℕ) : ∀ a b : ℕ, (2 ^ k ∣ (a ||| b) ↔ 2 ^ k ∣ a ∧ 2 ^ k ∣ b) := by
  induction k with
  | zero => intro a b; simp
  | succ k ih =>
    intro a b
    rw [two_pow_succ_dvd_iff, two_pow_succ_dvd_iff, two_pow_succ_dvd_iff,
      Nat.or_div_two, ih (a / 2) (b / 2)]
    have hor0 : (a ||| b) % 2 = 0 ↔ a % 2 = 0 ∧ b % 2 = 0 := by
      have h := Nat.or_mod_two_eq_one (a := a) (b := b)
      omega
    tauto

theorem or_eq_zero_iff (a b : ℕ) : (a ||| b) = 0 ↔ a = 0 ∧ b = 0 := by
  constructor
  · intro h
    constructor
    · apply Nat.eq_of_testBit_eq
      intro i
      have := congrArg (fun x => Nat.testBit x i) h
      simp only [Nat.testBit_or, Nat.zero_testBit] at this ⊢
      exact (Bool.or_eq_false_iff.mp this).1
    · apply Nat.eq_of_testBit_eq
      intro i
      have := congrArg (fun x => Nat.testBit x i) h
      simp only [Nat.testBit_or, Nat.zero_testBit] at this ⊢
      exact (Bool.or_eq_false_iff.mp this).2
  · rintro ⟨rfl, rfl⟩
    rfl

theorem tzN_or (a b : ℕ) (ha : a ≠ 0) (hb : b ≠ 0) (han : a < 2 ^ 33) (hbn : b < 2 ^ 33) :
    tzN (a ||| b) = min (tzN a) (tzN b) := by
  obtain ⟨hda, hnda⟩ := tzN_spec a ha han
  obtain ⟨hdb, hndb⟩ := tzN_spec b hb hbn
  have hor0 : (a ||| b) ≠ 0 := by
    intro h
    exact ha ((or_eq_zero_iff a b).mp h).1
  have horlt : (a ||| b) < 2 ^ 33 := Nat.or_lt_two_pow han hbn
  apply tzN_eq_of _ hor0 horlt
  constructor
  · rw [two_pow_dvd_or]
    exact ⟨dvd_trans (pow_dvd_pow 2 (Nat.min_le_left _ _)) hda,
      dvd_trans (pow_dvd_pow 2 (Nat.min_le_right _ _)) hdb⟩
  · intro hdvd
    rw [two_pow_dvd_or] at hdvd
    rcases Nat.le_total (tzN a) (tzN b) with h | h
    · rw [Nat.min_eq_left h] at hdvd
      exact hnda hdvd.1
    · rw [Nat.min_eq_right h] at hdvd
      exact hndb hdvd.2

theorem tzN_le_of_lt (n : ℕ) (h0 : n ≠ 0) (b : ℕ) (h1 : n < 2 ^ b) (hb : b ≤ 33) :
    tzN n < b := by
  obtain ⟨hd, _⟩ := tzN_spec n h0 (lt_of_lt_of_le h1 (Nat.pow_le_pow_right (by omega) hb))
  by_contra hge
  have : 2 ^ b ≤ 2 ^ tzN n := Nat.pow_le_pow_right (by omega) (by omega)
  have hle : 2 ^ tzN n ≤ n := Nat.le_of_dvd (by omega) hd
  omega

theorem tzN_two_pow_sub (a : ℕ) (h1 : 1 ≤ a) (h2 : a ≤ 2 ^ 31) :
    tzN (2 ^ 32 - a) = tzN a := by
  have ha0 : a ≠ 0 := by omega
  have halt : a < 2 ^ 33 := by omega
  obtain ⟨heq, hodd⟩ := oddPart_spec a ha0 halt
  have ht : tzN a ≤ 31 := by
    have hd := (tzN_spec a ha0 halt).1
    have hle : 2 ^ tzN a ≤ a := Nat.le_of_dvd (by omega) hd
    by_contra hgt
    have : (2 : ℕ) ^ 32 ≤ 2 ^ tzN a := Nat.pow_le_pow_right (by omega) (by omega)
    omega
  have hsub : 2 ^ 32 - a = 2 ^ tzN a * (2 ^ (32 - tzN a) - oddPart a) := by
    have hpow : 2 ^ tzN a * 2 ^ (32 - tzN a) = 2 ^ 32 := by
      rw [← pow_add]
      congr 1
      omega
    have hople : oddPart a ≤ 2 ^ (32 - tzN a) := by
      have h1le : 2 ^ tzN a * oddPart a ≤ 2 ^ tzN a * 2 ^ (32 - tzN a) := by omega
      exact Nat.le_of_mul_le_mul_left h1le (Nat.pos_pow_of_pos _ (by omega))
    rw [Nat.mul_sub, hpow, ← heq]
  have hodd2 : (2 ^ (32 - tzN a) - oddPart a) % 2 = 1 := by
    have h32 : 1 ≤ 32 - tzN a := by omega
    have heven : 2 ^ (32 - tzN a) % 2 = 0 := by
      have : (2 : ℕ) ^ (32 - tzN a) = 2 * 2 ^ (32 - tzN a - 1) := by
        rw [← pow_succ']
        congr 1
        omega
      omega
    have hle2 : oddPart a ≤ 2 ^ (32 - tzN a) := by
      have hpos : 0 < 2 ^ tzN a := Nat.pos_pow_of_pos _ (by omega)
      have hlea : oddPart a ≤ a := oddPart_le a
      have : a < 2 ^ 32 := by omega
      have hople : 2 ^ tzN a * oddPart a < 2 ^ tzN a * 2 ^ (32 - tzN a) := by
        rw [← pow_add]
        have : tzN a + (32 - tzN a) = 32 := by omega
        rw [this]
        omega
      have := Nat.lt_of_mul_lt_mul_left hople
      omega
    omega
  rw [hsub]
  have hlt : 2 ^ tzN a * (2 ^ (32 - tzN a) - oddPart a) < 2 ^ 33 := by
    rw [← hsub]; omega
  exact tzN_pow_mul _ _ hodd2 hlt

theorem coprime_two_pow_of_odd (t n : ℕ) (hn : n % 2 = 1) : Nat.Coprime (2 ^ t) n :=
  Nat.Coprime.pow_left t (Nat.coprime_two_left.mpr (Nat.odd_iff.mpr hn))

theorem gcd_oddPart_left (m n : ℕ) (h0 : m ≠ 0) (h1 : m < 2 ^ 33) (hn : n % 2 = 1) :
    Nat.gcd (oddPart m) n = Nat.gcd m n := by
  obtain ⟨heq, _⟩ := oddPart_spec m h0 h1
  conv_rhs => rw [heq]
  rw [Nat.Coprime.gcd_mul_left_cancel (oddPart m) (coprime_two_pow_of_odd _ n hn)]

theorem steinLoop_gcd : ∀ fuel m n, n % 2 = 1 → m < 2 ^ 33 → n < 2 ^ 33 →
    m + n ≤ fuel → steinLoop fuel m n = Nat.gcd m n := by
  intro fuel
  induction fuel with
  | zero => intro m n hodd _ _ hle; omega
  | succ f ih =>
    intro m n hodd hm hn hle
    unfold steinLoop
    by_cases hm0 : m = 0
    · simp [hm0]
    · simp only [hm0, if_false]
      obtain ⟨hmeq, hm1odd⟩ := oddPart_spec m hm0 hm
      have hm1le : oddPart m ≤ m := oddPart_le m
      have hm1ne : oddPart m ≠ 0 := oddPart_ne_zero m hm0 hm
      by_cases hgt : n > oddPart m
      · simp only [hgt, if_true]
        rw [ih (n - oddPart m) (oddPart m) hm1odd (by omega) (by omega) (by omega)]
        rw [Nat.gcd_sub_self_left (by omega)]
        rw [Nat.gcd_comm n (oddPart m)]
        rw [gcd_oddPart_left m n hm0 hm hodd]
      · simp only [hgt, if_false]
        rw [ih (oddPart m - n) n hodd (by omega) (by omega) (by omega)]
        rw [Nat.gcd_sub_self_left (by omega)]
        rw [gcd_oddPart_left m n hm0 hm hodd]

theorem gcd_two_pow_split_aux (A B M N : ℕ) (hModd : M % 2 = 1) (hNodd : N % 2 = 1) :
    Nat.gcd (2 ^ A * M) (2 ^ B * N) = 2 ^ min A B * Nat.gcd M N := by
  rcases Nat.le_total A B with h | h
  · rw [Nat.min_eq_left h]
    have hsplit : 2 ^ B * N = 2 ^ A * (2 ^ (B - A) * N) := by
      rw [← mul_assoc, ← pow_add]
      congr 2
      omega
    rw [hsplit, Nat.gcd_mul_left]
    congr 1
    exact Nat.Coprime.gcd_mul_left_cancel_right N (coprime_two_pow_of_odd _ _ hModd)
  · rw [Nat.min_eq_right h]
    have hsplit : 2 ^ A * M = 2 ^ B * (2 ^ (A - B) * M) := by
      rw [← mul_assoc, ← pow_add]
      congr 2
      omega
    rw [hsplit, Nat.gcd_mul_left]
    congr 1
    rw [Nat.gcd_comm, Nat.Coprime.gcd_mul_left_cancel_right M
      (coprime_two_pow_of_odd _ _ hNodd), Nat.gcd_comm]

theorem gcd_two_pow_split (m n : ℕ) (hm0 : m ≠ 0) (hn0 : n ≠ 0)
    (hm : m < 2 ^ 33) (hn : n < 2 ^ 33) :
    Nat.gcd m n = 2 ^ min (tzN m) (tzN n) * Nat.gcd m (oddPart n) := by
  obtain ⟨hmeq, hmodd⟩ := oddPart_spec m hm0 hm
  obtain ⟨hneq, hnodd⟩ := oddPart_spec n hn0 hn
  have hright : Nat.gcd m (oddPart n) = Nat.gcd (oddPart m) (oddPart n) := by
    conv_lhs => rw [hmeq]
    rw [Nat.Coprime.gcd_mul_left_cancel (oddPart m) (coprime_two_pow_of_odd _ _ hnodd)]
  rw [hright]
  calc Nat.gcd m n = Nat.gcd (2 ^ tzN m * oddPart m) (2 ^ tzN n * oddPart n) := by
        rw [← hmeq, ← hneq]
    _ = 2 ^ min (tzN m) (tzN n) * Nat.gcd (oddPart m) (oddPart n) :=
        gcd_two_pow_split_aux _ _ _ _ hmodd hnodd

theorem toU32_lt (z : ℤ) : toU32 z < 2 ^ 32 := by
  unfold toU32
  omega

theorem tzN_toU32 (z : ℤ) (h1 : I32_MIN ≤ z) (h2 : z ≤ I32_MAX) (h0 : z ≠ 0) :
    tzN (toU32 z) = tzN z.natAbs := by
  rw [toU32_i32 z h1 h2]
  by_cases hpos : 0 ≤ z
  · simp [hpos]
  · simp only [hpos, if_false]
    apply tzN_two_pow_sub
    · omega
    · unfold I32_MIN at h1
      omega

theorem natAbs_le_max (z : ℤ) (h1 : I32_MIN ≤ z) (h2 : z ≤ I32_MAX) (hmin : z ≠ I32_MIN) :
    z.natAbs ≤ 2 ^ 31 - 1 := by
  unfold I32_MIN I32_MAX at *
  omega

theorem wrap32_neg_id (z : ℤ) (h0 : 0 ≤ z) (h : z ≤ I32_MAX) : wrap32 (-z) = -z := by
  unfold wrap32 I32_MAX at *
  omega

/-- The central description of the source's `gcd` away from the
`i32::MIN` special branch: the value is `±gcd(|m|, |n|)` with the sign of
`n`, or of `m` when `n = 0`. -/
theorem gcdRust_eq (m n : ℤ) (hm1 : I32_MIN ≤ m) (hm2 : m ≤ I32_MAX)
    (hn1 : I32_MIN ≤ n) (hn2 : n ≤ I32_MAX) (hmm : m ≠ I32_MIN) (hnm : n ≠ I32_MIN) :
    gcdRust m n =
      (if n = 0 then Int.sign m else Int.sign n) * (Nat.gcd m.natAbs n.natAbs : ℤ) := by
  unfold gcdRust
  by_cases hm0 : m = 0
  · subst hm0
    simp only [true_or, if_true]
    have ht0 : toU32 0 = 0 := by unfold toU32; omega
    rw [ht0, Nat.zero_or]
    rw [wrap32_toU32 n hn1 hn2]
    by_cases hn0 : n = 0
    · subst hn0; simp
    · simp only [hn0, if_false, Int.natAbs_zero, Nat.gcd_zero_left]
      rw [Int.sign_mul_natAbs]
  · by_cases hn0 : n = 0
    · subst hn0
      simp only [or_true, if_true]
      have ht0 : toU32 0 = 0 := by unfold toU32; omega
      rw [ht0, Nat.or_zero]
      rw [wrap32_toU32 m hm1 hm2]
      simp only [if_true, Int.natAbs_zero, Nat.gcd_zero_right]
      rw [Int.sign_mul_natAbs]
    · have hor : ¬(m = 0 ∨ n = 0) := by tauto
      have hmin : ¬(m = I32_MIN ∨ n = I32_MIN) := by tauto
      rw [if_neg hor, if_neg hmin, if_neg hn0]
      -- identify the shift
      have hma : m.natAbs ≠ 0 := by omega
      have hna : n.natAbs ≠ 0 := by omega
      have hmlt : m.natAbs < 2 ^ 33 := by
        have := natAbs_le_max m hm1 hm2 hmm; omega
      have hnlt : n.natAbs < 2 ^ 33 := by
        have := natAbs_le_max n hn1 hn2 hnm; omega
      have htm : tzN (toU32 m) = tzN m.natAbs := tzN_toU32 m hm1 hm2 hm0
      have htn : tzN (toU32 n) = tzN n.natAbs := tzN_toU32 n hn1 hn2 hn0
      have hu32m : toU32 m ≠ 0 := fun h => hm0 ((toU32_eq_zero_iff m hm1 hm2).mp h)
      have hu32n : toU32 n ≠ 0 := fun h => hn0 ((toU32_eq_zero_iff n hn1 hn2).mp h)
      have hshift : tzN (toU32 m ||| toU32 n) = min (tzN m.natAbs) (tzN n.natAbs) := by
        rw [tzN_or (toU32 m) (toU32 n) hu32m hu32n
          (lt_trans (toU32_lt m) (by norm_num)) (lt_trans (toU32_lt n) (by norm_num))]
        rw [htm, htn]
      -- identify the Stein loop result
      have hodd : oddPart n.natAbs % 2 = 1 := (oddPart_spec n.natAbs hna hnlt).2
      have hstein : steinLoop (m.natAbs + (n.natAbs >>> tzN n.natAbs) + 1)
          m.natAbs (n.natAbs >>> tzN n.natAbs) = Nat.gcd m.natAbs (oddPart n.natAbs) := by
        have hop : n.natAbs >>> tzN n.natAbs = oddPart n.natAbs := rfl
        rw [hop]
        exact steinLoop_gcd _ _ _ hodd hmlt
          (lt_of_le_of_lt (oddPart_le _) hnlt) (by omega)
      rw [hstein, hshift]
      -- combine
      have hsplit := gcd_two_pow_split m.natAbs n.natAbs hma hna hmlt hnlt
      have hgle : Nat.gcd m.natAbs n.natAbs ≤ 2 ^ 31 - 1 := by
        have h1 := Nat.gcd_le_left (m := m.natAbs) n.natAbs (by omega)
        have h2 := natAbs_le_max m hm1 hm2 hmm
        omega
      have hinner : ((Nat.gcd m.natAbs (oddPart n.natAbs) : ℤ))
          * 2 ^ (min (tzN m.natAbs) (tzN n.natAbs)) = (Nat.gcd m.natAbs n.natAbs : ℤ) := by
        rw [hsplit]
        push_cast
        ring
      rw [hinner]
      have hgc1 : I32_MIN ≤ (Nat.gcd m.natAbs n.natAbs : ℤ) := by
        unfold I32_MIN
        have : (0 : ℤ) ≤ (Nat.gcd m.natAbs n.natAbs : ℤ) := Int.ofNat_nonneg _
        omega
      have hgc2 : (Nat.gcd m.natAbs n.natAbs : ℤ) ≤ I32_MAX := by
        unfold I32_MAX
        have : (Nat.gcd m.natAbs n.natAbs : ℤ) ≤ ((2 ^ 31 - 1 : ℕ) : ℤ) :=
          Int.ofNat_le.mpr hgle
        omega
      have hw1 : wrap32 ((Nat.gcd m.natAbs n.natAbs : ℤ)) = (Nat.gcd m.natAbs n.natAbs : ℤ) :=
        wrap32_id _ hgc1 hgc2
      rw [hw1]
      have hsgn : Int.sign n = 1 ∨ Int.sign n = -1 := by
        rcases lt_trichotomy n 0 with h | h | h
        · right; exact Int.sign_eq_neg_one_of_neg h
        · exact absurd h hn0
        · left; exact Int.sign_eq_one_of_pos h
      rcases hsgn with hs | hs <;> rw [hs]
      · rw [mul_one, one_mul]
        exact hw1
      · have h1 : (Nat.gcd m.natAbs n.natAbs : ℤ) * -1 = -(Nat.gcd m.natAbs n.natAbs : ℤ) := by
          ring
        rw [h1]
        have hneg : -1 * (Nat.gcd m.natAbs n.natAbs : ℤ) = -(Nat.gcd m.natAbs n.natAbs : ℤ) := by
          ring
        rw [hneg]
        exact wrap32_neg_id _ (Int.ofNat_nonneg _) hgc2

theorem toU32_min : toU32 I32_MIN = 2 ^ 31 := by
  unfold toU32 I32_MIN
  omega

theorem tzN_two_pow_31 : tzN (2 ^ 31) = 31 := by
  have h := tzN_pow_mul 31 1 (by omega) (by norm_num)
  simpa using h

theorem tzN_natAbs_le_30 (z : ℤ) (h0 : z ≠ 0) (h1 : I32_MIN < z) (h2 : z ≤ I32_MAX) :
    tzN z.natAbs ≤ 30 := by
  have ha : z.natAbs ≠ 0 := by omega
  have hlt : z.natAbs < 2 ^ 31 := by
    unfold I32_MIN I32_MAX at *
    omega
  have := tzN_le_of_lt z.natAbs ha 31 hlt (by omega)
  omega

/-- The `i32::MIN` branch of the source's `gcd` when the other argument is a
normal nonzero value: the result is `2 ^ (trailing zeros of the other
argument)`. -/
theorem gcdRust_min_left (n : ℤ) (hn1 : I32_MIN < n) (hn2 : n ≤ I32_MAX) (hn0 : n ≠ 0) :
    gcdRust I32_MIN n = 2 ^ tzN n.natAbs := by
  unfold gcdRust
  have hm0 : I32_MIN ≠ 0 := by unfold I32_MIN; omega
  have hor : ¬(I32_MIN = 0 ∨ n = 0) := by tauto
  rw [if_neg hor, if_pos (Or.inl rfl)]
  have hu32n : toU32 n ≠ 0 := by
    intro h
    exact hn0 ((toU32_eq_zero_iff n (le_of_lt hn1) hn2).mp h)
  have htz : tzN (toU32 I32_MIN ||| toU32 n) = tzN n.natAbs := by
    rw [toU32_min]
    rw [tzN_or (2 ^ 31) (toU32 n) (by positivity) hu32n (by norm_num)
      (lt_trans (toU32_lt n) (by norm_num))]
    rw [tzN_two_pow_31, tzN_toU32 n (le_of_lt hn1) hn2 hn0]
    have := tzN_natAbs_le_30 n hn0 hn1 hn2
    omega
  rw [htz]
  apply wrap32_id
  · have hp : (0 : ℤ) ≤ 2 ^ tzN n.natAbs := by positivity
    unfold I32_MIN
    omega
  · have h30 := tzN_natAbs_le_30 n hn0 hn1 hn2
    have hle : (2 : ℤ) ^ tzN n.natAbs ≤ 2 ^ 30 := by
      apply pow_le_pow_right₀ (by omega) h30
    unfold I32_MAX
    omega

/-- The symmetric `i32::MIN` branch (second argument is `i32::MIN`). -/
theorem gcdRust_min_right (m : ℤ) (hm1 : I32_MIN < m) (hm2 : m ≤ I32_MAX) (hm0 : m ≠ 0) :
    gcdRust m I32_MIN = 2 ^ tzN m.natAbs := by
  unfold gcdRust
  have hn0 : I32_MIN ≠ 0 := by unfold I32_MIN; omega
  have hor : ¬(m = 0 ∨ I32_MIN = 0) := by tauto
  rw [if_neg hor, if_pos (Or.inr rfl)]
  have hu32m : toU32 m ≠ 0 := by
    intro h
    exact hm0 ((toU32_eq_zero_iff m (le_of_lt hm1) hm2).mp h)
  have htz : tzN (toU32 m ||| toU32 I32_MIN) = tzN m.natAbs := by
    rw [toU32_min]
    rw [tzN_or (toU32 m) (2 ^ 31) hu32m (by positivity)
      (lt_trans (toU32_lt m) (by norm_num)) (by norm_num)]
    rw [tzN_two_pow_31, tzN_toU32 m (le_of_lt hm1) hm2 hm0]
    have := tzN_natAbs_le_30 m hm0 hm1 hm2
    omega
  rw [htz]
  apply wrap32_id
  · have hp : (0 : ℤ) ≤ 2 ^ tzN m.natAbs := by positivity
    unfold I32_MIN
    omega
  · have h30 := tzN_natAbs_le_30 m hm0 hm1 hm2
    have hle : (2 : ℤ) ^ tzN m.natAbs ≤ 2 ^ 30 := by
      apply pow_le_pow_right₀ (by omega) h30
    unfold I32_MAX
    omega

/-- Both arguments `i32::MIN`: the shifted 1 wraps to `i32::MIN` itself. -/
theorem gcdRust_min_min : gcdRust I32_MIN I32_MIN = I32_MIN := by
  unfold gcdRust
  have hm0 : I32_MIN ≠ 0 := by unfold I32_MIN; omega
  have hor : ¬(I32_MIN = 0 ∨ I32_MIN = 0) := by tauto
  rw [if_neg hor, if_pos (Or.inl rfl)]
  rw [toU32_min, Nat.or_self, tzN_two_pow_31]
  unfold wrap32 I32_MIN
  norm_num

theorem checkedMulI32_ok {a b c : ℤ} (h : checkedMulI32 a b = some c) :
    c = a * b ∧ I32_MIN ≤ c ∧ c ≤ I32_MAX := by
  unfold checkedMulI32 at h
  split at h
  · cases h
    constructor
    · rfl
    · assumption
  · cases h

theorem checkedMulU32_ok {a b c : ℕ} (h : checkedMulU32 a b = some c) :
    c = a * b ∧ c < 2 ^ 32 := by
  unfold checkedMulU32 at h
  split at h
  · cases h
    constructor
    · rfl
    · assumption
  · cases h

theorem checkedPowLoop_ok : ∀ fuel acc base e, e ≤ fuel →
    I32_MIN ≤ acc → acc ≤ I32_MAX →
    ∀ v, checkedPowLoop fuel acc base e = .ok v →
      v = acc * base ^ e ∧ I32_MIN ≤ v ∧ v ≤ I32_MAX := by
  intro fuel
  induction fuel with
  | zero =>
    intro acc base e hle ha1 ha2 v hv
    unfold checkedPowLoop at hv
    cases hv
    have he : e = 0 := by omega
    subst he
    simp
    exact ⟨ha1, ha2⟩
  | succ f ih =>
    intro acc base e hle ha1 ha2 v hv
    unfold checkedPowLoop at hv
    by_cases h1 : 1 < e
    · rw [if_pos h1] at hv
      by_cases hodd : e % 2 = 1
      · rw [if_pos hodd] at hv
        cases hm1 : checkedMulI32 acc base with
        | none => rw [hm1] at hv; cases hv
        | some acc2 =>
          rw [hm1] at hv
          cases hm2 : checkedMulI32 base base with
          | none => rw [hm2] at hv; cases hv
          | some b2 =>
            rw [hm2] at hv
            obtain ⟨hacc2, ha21, ha22⟩ := checkedMulI32_ok hm1
            obtain ⟨hb2, _, _⟩ := checkedMulI32_ok hm2
            obtain ⟨hval, hv1, hv2⟩ := ih acc2 b2 (e / 2) (by omega) ha21 ha22 v hv
            refine ⟨?_, hv1, hv2⟩
            rw [hval, hacc2, hb2]
            have hsq : (base * base) ^ (e / 2) = base ^ (2 * (e / 2)) := by
              rw [two_mul, pow_add, mul_pow]
            rw [hsq]
            have he : e = 2 * (e / 2) + 1 := by omega
            conv_rhs => rw [he]
            rw [pow_add, pow_one]
            ring
      · rw [if_neg hodd] at hv
        cases hm2 : checkedMulI32 base base with
        | none => rw [hm2] at hv; cases hv
        | some b2 =>
          rw [hm2] at hv
          obtain ⟨hb2, _, _⟩ := checkedMulI32_ok hm2
          obtain ⟨hval, hv1, hv2⟩ := ih acc b2 (e / 2) (by omega) ha1 ha2 v hv
          refine ⟨?_, hv1, hv2⟩
          rw [hval, hb2]
          have hsq : (base * base) ^ (e / 2) = base ^ (2 * (e / 2)) := by
            rw [two_mul, pow_add, mul_pow]
          rw [hsq]
          have he : e = 2 * (e / 2) := by omega
          conv_rhs => rw [he]
    · rw [if_neg h1] at hv
      by_cases he1 : e = 1
      · rw [if_pos he1] at hv
        cases hm : checkedMulI32 acc base with
        | none => rw [hm] at hv; cases hv
        | some w =>
          rw [hm] at hv
          cases hv
          obtain ⟨hw, hw1, hw2⟩ := checkedMulI32_ok hm
          subst he1
          rw [pow_one]
          exact ⟨hw, hw1, hw2⟩
      · rw [if_neg he1] at hv
        cases hv
        have he : e = 0 := by omega
        subst he
        simp
        exact ⟨ha1, ha2⟩

theorem checkedPow_ok {base : ℤ} {e : ℕ} {v : ℤ} (h : checkedPow base e = .ok v) :
    v = base ^ e ∧ I32_MIN ≤ v ∧ v ≤ I32_MAX := by
  obtain ⟨hv, h1, h2⟩ := checkedPowLoop_ok (e + 1) 1 base e (by omega)
    (by unfold I32_MIN; omega) (by unfold I32_MAX; omega) v h
  rw [one_mul] at hv
  exact ⟨hv, h1, h2⟩


/-!
Small helper lemmas about the casts, with clean contexts. -/

theorem wrap32_den (d : ℕ) (h : (d : ℤ) ≤ I32_MAX) : wrap32 (d : ℤ) = (d : ℤ) := by
  unfold wrap32 I32_MAX at *
  omega

theorem toU32_natAbs_pos (z : ℤ) (h0 : 0 < z) (h2 : z ≤ I32_MAX) :
    toU32 z = z.natAbs := by
  unfold toU32 I32_MAX at *
  omega

theorem toU32_natAbs_negated (z : ℤ) (h0 : z < 0) (h1 : I32_MIN < z) :
    toU32 (-z) = z.natAbs := by
  unfold toU32 I32_MIN at *
  omega

theorem toU32_natCast (d : ℕ) (h : d < 2 ^ 32) : toU32 (d : ℤ) = d := by
  unfold toU32
  omega

theorem wrap32_natCast_id (d : ℕ) (h : (d : ℤ) ≤ I32_MAX) : wrap32 (d : ℤ) = d := by
  unfold wrap32 I32_MAX at *
  omega

theorem wrap32_neg_cast (d : ℕ) (h1 : 1 ≤ d) (h2 : (d : ℤ) ≤ I32_MAX) :
    wrap32 (-(d : ℤ)) = -(d : ℤ) := by
  unfold wrap32 I32_MAX at *
  omega

/-!
Invariant lemmas for the `Rational` operations. -/

theorem check_overflow_ok {r r' : Rational} (h : Rational.check_overflow r = .ok r') :
    r' = r ∧ I32_MIN < r.num ∧ 0 < r.den ∧ (r.den : ℤ) ≤ I32_MAX := by
  unfold Rational.check_overflow at h
  split at h
  · cases h
    constructor
    · rfl
    · assumption
  · cases h

theorem natAbs_tdiv_natCast (a : ℤ) (G : ℕ) (hG : 0 < G) (hdvd : (G : ℤ) ∣ a) :
    (a.tdiv (G : ℤ)).natAbs = a.natAbs / G := by
  have h := Int.mul_tdiv_cancel' hdvd
  have habs : G * (a.tdiv (G : ℤ)).natAbs = a.natAbs := by
    have h2 := congrArg Int.natAbs h
    rwa [Int.natAbs_mul, Int.natAbs_ofNat] at h2
  rw [← habs, Nat.mul_div_cancel_left _ hG]

theorem gcd_left_dvd_int (a : ℤ) (b : ℕ) : ((Nat.gcd a.natAbs b : ℕ) : ℤ) ∣ a :=
  Int.natCast_dvd.mpr (Nat.gcd_dvd_left _ _)

/-- The invariant holds for results of `from_integer`. -/
theorem Inv_from_integer {i : ℤ} {r : Rational} (h2 : i ≤ I32_MAX)
    (h : Rational.from_integer i = .ok r) : r.Inv := by
  unfold Rational.from_integer at h
  split at h
  · cases h
    rename_i hgt
    unfold Rational.Inv
    dsimp only
    refine ⟨hgt, h2, by omega, ?_, by simp⟩
    unfold I32_MAX
    omega
  · cases h

theorem wrap32_neg_i32 (z : ℤ) (h1 : I32_MIN < z) (h2 : z ≤ I32_MAX) :
    wrap32 (-z) = -z := by
  unfold wrap32 I32_MIN I32_MAX at *
  omega

/-- Numeric form of the invariant (avoids the opaque bound constants in
`omega`-driven proofs). -/
theorem Inv_bounds {r : Rational} (h : r.Inv) :
    -(2 ^ 31) < r.num ∧ r.num ≤ 2 ^ 31 - 1 ∧ 0 < r.den ∧ (r.den : ℤ) ≤ 2 ^ 31 - 1 ∧
      Nat.gcd r.num.natAbs r.den = 1 := by
  obtain ⟨h1, h2, h3, h4, h5⟩ := h
  unfold I32_MIN at h1
  unfold I32_MAX at h2 h4
  exact ⟨h1, h2, h3, h4, h5⟩

/-- Build the invariant from its numeric form. -/
theorem Inv_mk {r : Rational} (h1 : -(2 ^ 31) < r.num) (h2 : r.num ≤ 2 ^ 31 - 1)
    (h3 : 0 < r.den) (h4 : (r.den : ℤ) ≤ 2 ^ 31 - 1)
    (h5 : Nat.gcd r.num.natAbs r.den = 1) : r.Inv := by
  unfold Rational.Inv I32_MIN I32_MAX
  exact ⟨h1, h2, h3, h4, h5⟩

/-- The invariant is preserved by `recip`. -/
theorem Inv_recip {r r' : Rational} (hr : r.Inv) (h : Rational.recip r = .ok r') :
    r'.Inv := by
  obtain ⟨h1, h2, h3, h4, h5⟩ := Inv_bounds hr
  have hwd : wrap32 (r.den : ℤ) = (r.den : ℤ) := by unfold wrap32; omega
  unfold Rational.recip at h
  split at h
  · injection h with h9
    subst h9
    rename_i hpos
    have hu : toU32 r.num = r.num.natAbs := by unfold toU32; omega
    rw [hwd, hu]
    apply Inv_mk
    · dsimp only; omega
    · dsimp only; omega
    · dsimp only; omega
    · dsimp only; omega
    · dsimp only
      simp only [Int.natAbs_ofNat]
      rw [Nat.gcd_comm]
      exact h5
  · split at h
    · injection h with h9
      subst h9
      rename_i hng h0
      have hneg : r.num < 0 := by omega
      have hw2 : wrap32 (-(r.den : ℤ)) = -(r.den : ℤ) := by unfold wrap32; omega
      have hw3 : wrap32 (-r.num) = -r.num := by unfold wrap32; omega
      have hu : toU32 (-r.num) = r.num.natAbs := by unfold toU32; omega
      rw [hwd, hw2, hw3, hu]
      apply Inv_mk
      · dsimp only; omega
      · dsimp only; omega
      · dsimp only; omega
      · dsimp only; omega
      · dsimp only
        simp only [Int.natAbs_neg, Int.natAbs_ofNat]
        rw [Nat.gcd_comm]
        exact h5
    · exact Except.noConfusion h

/-- Double reciprocal is the identity on invariant-satisfying inputs. -/
theorem recip_recip {r r' : Rational} (hr : r.Inv) (h : Rational.recip r = .ok r') :
    Rational.recip r' = .ok r := by
  obtain ⟨h1, h2, h3, h4, h5⟩ := Inv_bounds hr
  unfold Rational.recip at h
  split at h
  · injection h with h9
    subst h9
    rename_i hpos
    have hwd : wrap32 (r.den : ℤ) = (r.den : ℤ) := by unfold wrap32; omega
    have hu : toU32 r.num = r.num.natAbs := by unfold toU32; omega
    rw [hwd, hu]
    unfold Rational.recip
    dsimp only
    rw [if_pos (by omega : (0 : ℤ) < (r.den : ℤ))]
    have hw2 : wrap32 ((r.num.natAbs : ℕ) : ℤ) = r.num := by unfold wrap32; omega
    have hu2 : toU32 (r.den : ℤ) = r.den := by unfold toU32; omega
    rw [hw2, hu2]
  · split at h
    · injection h with h9
      subst h9
      rename_i hng h0
      have hneg : r.num < 0 := by omega
      have hwd : wrap32 (r.den : ℤ) = (r.den : ℤ) := by unfold wrap32; omega
      have hw2 : wrap32 (-(r.den : ℤ)) = -(r.den : ℤ) := by unfold wrap32; omega
      have hw3 : wrap32 (-r.num) = -r.num := by unfold wrap32; omega
      have hu : toU32 (-r.num) = r.num.natAbs := by unfold toU32; omega
      rw [hwd, hw2, hw3, hu]
      unfold Rational.recip
      dsimp only
      rw [if_neg (by omega : ¬(0 : ℤ) < -(r.den : ℤ))]
      rw [if_pos (by omega : -(r.den : ℤ) ≠ 0)]
      have hw4 : wrap32 (-(wrap32 ((r.num.natAbs : ℕ) : ℤ))) = r.num := by
        unfold wrap32
        omega
      have hu2 : toU32 (wrap32 (-(-(r.den : ℤ)))) = r.den := by
        unfold toU32 wrap32
        omega
      rw [hw4, hu2]
    · exact Except.noConfusion h

theorem gcdRust_zero_left (n : ℤ) (hn1 : I32_MIN ≤ n) (hn2 : n ≤ I32_MAX) :
    gcdRust 0 n = n := by
  unfold gcdRust
  rw [if_pos (Or.inl rfl)]
  have ht0 : toU32 0 = 0 := by unfold toU32; omega
  rw [ht0, Nat.zero_or]
  exact wrap32_toU32 n hn1 hn2

theorem gcd_right_dvd_int (a b : ℤ) : ((Nat.gcd a.natAbs b.natAbs : ℕ) : ℤ) ∣ b :=
  Int.natCast_dvd.mpr (Nat.gcd_dvd_right _ _)

theorem tdiv_natCast_of_pos (a : ℤ) (G : ℕ) (ha : 0 < a) (hG0 : 0 < G)
    (hdvd : (G : ℤ) ∣ a) : a.tdiv (G : ℤ) = ((a.natAbs / G : ℕ) : ℤ) := by
  have hnn : 0 ≤ a.tdiv (G : ℤ) := Int.tdiv_nonneg (le_of_lt ha) (Int.ofNat_nonneg G)
  have habs := natAbs_tdiv_natCast a G hG0 hdvd
  rw [← Int.natAbs_of_nonneg hnn, habs]

/-- Quotient of a nonzero integer by its sign times a positive divisor: the
absolute value divided by the divisor. -/
theorem tdiv_sign_abs_div (a : ℤ) (G : ℕ) (hG0 : 0 < G) (hdvd : (G : ℤ) ∣ a)
    (ha0 : a ≠ 0) : a.tdiv (Int.sign a * (G : ℤ)) = ((a.natAbs / G : ℕ) : ℤ) := by
  rcases lt_trichotomy a 0 with hlt | heq | hgt
  · rw [Int.sign_eq_neg_one_of_neg hlt]
    have h1 : (-1 : ℤ) * (G : ℤ) = -(G : ℤ) := by ring
    rw [h1, Int.tdiv_neg]
    have h2 : a.tdiv (G : ℤ) = -((-a).tdiv (G : ℤ)) := by
      rw [← Int.neg_tdiv, neg_neg]
    rw [h2, neg_neg]
    have h3 := tdiv_natCast_of_pos (-a) G (by omega) hG0 (Dvd.dvd.neg_right hdvd)
    rwa [Int.natAbs_neg] at h3
  · exact absurd heq ha0
  · rw [Int.sign_eq_one_of_pos hgt, one_mul]
    exact tdiv_natCast_of_pos a G hgt hG0 hdvd

theorem natAbs_tdiv_sign (b : ℤ) (sa : ℤ) (hs : sa = 1 ∨ sa = -1) (G : ℕ)
    (hG0 : 0 < G) (hdvd : (G : ℤ) ∣ b) :
    (b.tdiv (sa * (G : ℤ))).natAbs = b.natAbs / G := by
  rcases hs with rfl | rfl
  · rw [one_mul]
    exact natAbs_tdiv_natCast b G hG0 hdvd
  · have h1 : (-1 : ℤ) * (G : ℤ) = -(G : ℤ) := by ring
    rw [h1, Int.tdiv_neg, Int.natAbs_neg]
    exact natAbs_tdiv_natCast b G hG0 hdvd

theorem min_tdiv_two_pow (t : ℕ) (ht : t ≤ 31) :
    (-2147483648 : ℤ).tdiv ((2 : ℤ) ^ t) = -(((2 : ℕ) ^ (31 - t) : ℕ) : ℤ) := by
  have hsplit : (2147483648 : ℤ) = (2 : ℤ) ^ t * (2 : ℤ) ^ (31 - t) := by
    rw [← pow_add]
    have h31 : t + (31 - t) = 31 := by omega
    rw [h31]
    norm_num
  have hneg : (-2147483648 : ℤ) = -((2147483648 : ℤ)) := by norm_num
  rw [hneg, Int.neg_tdiv]
  congr 1
  · have hdvd : (2 : ℤ) ^ t ∣ 2147483648 := ⟨(2 : ℤ) ^ (31 - t), hsplit⟩
    have hcan := Int.mul_tdiv_cancel' hdvd
    have h2 : (2 : ℤ) ^ t * (2147483648 : ℤ).tdiv ((2 : ℤ) ^ t)
        = (2 : ℤ) ^ t * (((2 : ℕ) ^ (31 - t) : ℕ) : ℤ) := by
      rw [hcan, hsplit]
      congr 1
      push_cast
      ring
    have hne : ((2 : ℤ) ^ t) ≠ 0 := by positivity
    exact mul_left_cancel₀ hne h2

/-- Preservation of the invariant (with reducedness) by `Rational::new`, for
every `i32` argument pair with nonzero denominator. -/
theorem Inv_new {num den : ℤ} {r : Rational} (hd0 : den ≠ 0)
    (hn1 : I32_MIN ≤ num) (hn2 : num ≤ I32_MAX) (hd1 : I32_MIN ≤ den)
    (hd2 : den ≤ I32_MAX) (h : Rational.new num den = .ok r) : r.Inv := by
  unfold Rational.new at h
  rw [if_neg hd0] at h
  obtain ⟨heq, hb1, hb2, hb3⟩ := check_overflow_ok h
  subst heq
  unfold I32_MIN at hn1 hd1 hb1
  unfold I32_MAX at hn2 hd2 hb3
  dsimp only at hb1 hb2 hb3 ⊢
  by_cases hnum0 : num = 0
  · subst hnum0
    have hg : gcdRust 0 den = den :=
      gcdRust_zero_left den (by unfold I32_MIN; omega) (by unfold I32_MAX; omega)
    rw [hg] at hb2 hb3 ⊢
    rw [Int.zero_tdiv]
    rw [Int.tdiv_self hd0] at hb2 hb3 ⊢
    have ht1 : toU32 1 = 1 := by unfold toU32; omega
    rw [ht1]
    apply Inv_mk <;> dsimp only
    · omega
    · omega
    · omega
    · omega
    · simp
  · by_cases hnmin : num = I32_MIN
    · by_cases hdmin : den = I32_MIN
      · subst hnmin
        subst hdmin
        have hg : gcdRust I32_MIN I32_MIN = I32_MIN := gcdRust_min_min
        rw [hg] at hb2 hb3 ⊢
        rw [Int.tdiv_self (by unfold I32_MIN; omega : I32_MIN ≠ 0)] at hb2 hb3 ⊢
        have ht1 : toU32 1 = 1 := by unfold toU32; omega
        rw [ht1]
        apply Inv_mk <;> dsimp only
        · omega
        · omega
        · omega
        · omega
        · simp
      · -- num = MIN, den a normal nonzero value
        subst hnmin
        have hg : gcdRust I32_MIN den = 2 ^ tzN den.natAbs :=
          gcdRust_min_left den (by unfold I32_MIN at *; omega)
            (by unfold I32_MAX; omega) hd0
        have ht30 : tzN den.natAbs ≤ 30 :=
          tzN_natAbs_le_30 den hd0 (by unfold I32_MIN at *; omega)
            (by unfold I32_MAX; omega)
        have hda : den.natAbs ≠ 0 := by omega
        have hdlt : den.natAbs < 2 ^ 33 := by omega
        obtain ⟨hdeq, hdodd⟩ := oddPart_spec den.natAbs hda hdlt
        have hdvd : (((2 : ℕ) ^ tzN den.natAbs : ℕ) : ℤ) ∣ den := by
          apply Int.natCast_dvd.mpr
          exact Dvd.intro _ hdeq.symm
        have hcast2 : (((2 : ℕ) ^ tzN den.natAbs : ℕ) : ℤ) = (2 : ℤ) ^ tzN den.natAbs := by
          push_cast
          ring
        have hdvdz : (2 : ℤ) ^ tzN den.natAbs ∣ den := hcast2 ▸ hdvd
        rw [hg] at hb1 hb2 hb3 ⊢
        have hmin_eq : I32_MIN = (-2147483648 : ℤ) := rfl
        have hnum' := min_tdiv_two_pow (tzN den.natAbs) (by omega)
        rw [hmin_eq] at hb1 ⊢
        rw [hnum'] at hb1 ⊢
        rcases lt_trichotomy den 0 with hdlt0 | hdeq0 | hdgt0
        · -- negative denominator: the u32 cast makes check_overflow fail
          exfalso
          have hdd : den.tdiv ((2 : ℤ) ^ tzN den.natAbs)
              = -(((den.natAbs / 2 ^ tzN den.natAbs : ℕ) : ℕ) : ℤ) := by
            have h2 : den.tdiv ((2 : ℤ) ^ tzN den.natAbs)
                = -((-den).tdiv ((2 : ℤ) ^ tzN den.natAbs)) := by
              rw [← Int.neg_tdiv, neg_neg]
            rw [h2]
            congr 1
            rw [← hcast2]
            have h3 := tdiv_natCast_of_pos (-den) (2 ^ tzN den.natAbs) (by omega)
              (by positivity) (Dvd.dvd.neg_right hdvd)
            rw [Int.natAbs_neg] at h3
            exact h3
          rw [hdd] at hb3
          have hq1 : 1 ≤ den.natAbs / 2 ^ tzN den.natAbs := by
            apply Nat.div_pos
            · exact Nat.le_of_dvd (by omega) (Dvd.intro _ hdeq.symm)
            · positivity
          have hq2 : den.natAbs / 2 ^ tzN den.natAbs ≤ den.natAbs := Nat.div_le_self _ _
          have : toU32 (-((den.natAbs / 2 ^ tzN den.natAbs : ℕ) : ℤ))
              = 4294967296 - den.natAbs / 2 ^ tzN den.natAbs := by
            unfold toU32
            omega
          rw [this] at hb3
          omega
        · exact absurd hdeq0 hd0
        · -- positive denominator: the quotient is the odd part
          have hdd : den.tdiv ((2 : ℤ) ^ tzN den.natAbs)
              = ((den.natAbs / 2 ^ tzN den.natAbs : ℕ) : ℤ) := by
            rw [← hcast2]
            exact tdiv_natCast_of_pos den (2 ^ tzN den.natAbs) hdgt0
              (by positivity) hdvd
          rw [hdd] at hb2 hb3 ⊢
          have htu : toU32 ((den.natAbs / 2 ^ tzN den.natAbs : ℕ) : ℤ)
              = den.natAbs / 2 ^ tzN den.natAbs := by
            apply toU32_ofNat
            have hq2 : den.natAbs / 2 ^ tzN den.natAbs ≤ den.natAbs :=
              Nat.div_le_self _ _
            omega
          rw [htu]
          apply Inv_mk <;> dsimp only
          · omega
          · have hp : (0 : ℤ) ≤ (((2 : ℕ) ^ (31 - tzN den.natAbs) : ℕ) : ℤ) :=
              Int.natCast_nonneg _
            omega
          · rw [htu] at hb2; omega
          · rw [htu] at hb3; omega
          · have hop : den.natAbs / 2 ^ tzN den.natAbs = oddPart den.natAbs := by
              rw [oddPart_eq_div]
            rw [hop]
            have habs : (-(((2 : ℕ) ^ (31 - tzN den.natAbs) : ℕ) : ℤ)).natAbs
                = 2 ^ (31 - tzN den.natAbs) := by
              rw [Int.natAbs_neg, Int.natAbs_ofNat]
            rw [habs]
            exact coprime_two_pow_of_odd _ _ hdodd
    · by_cases hdmin : den = I32_MIN
      · -- den = MIN, num a normal nonzero value: check_overflow must fail
        exfalso
        subst hdmin
        have hg : gcdRust num I32_MIN = 2 ^ tzN num.natAbs :=
          gcdRust_min_right num (by unfold I32_MIN at *; omega)
            (by unfold I32_MAX; omega) hnum0
        have ht30 : tzN num.natAbs ≤ 30 :=
          tzN_natAbs_le_30 num hnum0 (by unfold I32_MIN at *; omega)
            (by unfold I32_MAX; omega)
        rw [hg] at hb3
        have hmin_eq : I32_MIN = (-2147483648 : ℤ) := rfl
        rw [hmin_eq] at hb3
        rw [min_tdiv_two_pow (tzN num.natAbs) (by omega)] at hb3
        have hple : (2 : ℕ) ^ (31 - tzN num.natAbs) ≤ 2 ^ 31 :=
          Nat.pow_le_pow_right (by omega) (by omega)
        have hpge : (2 : ℕ) ^ 1 ≤ 2 ^ (31 - tzN num.natAbs) :=
          Nat.pow_le_pow_right (by omega) (by omega)
        have : toU32 (-(((2 : ℕ) ^ (31 - tzN num.natAbs) : ℕ) : ℤ))
            = 4294967296 - 2 ^ (31 - tzN num.natAbs) := by
          unfold toU32
          omega
        rw [this] at hb3
        omega
      · -- both arguments normal: the main reduction
        unfold I32_MIN at hnmin hdmin
        have hg : gcdRust num den
            = Int.sign den * (Nat.gcd num.natAbs den.natAbs : ℤ) := by
          rw [gcdRust_eq num den (by unfold I32_MIN; omega) (by unfold I32_MAX; omega)
            (by unfold I32_MIN; omega) (by unfold I32_MAX; omega) hnmin hdmin]
          rw [if_neg hd0]
        have hG0 : 0 < Nat.gcd num.natAbs den.natAbs := by
          apply Nat.gcd_pos_of_pos_left
          omega
        have hdvdn : ((Nat.gcd num.natAbs den.natAbs : ℕ) : ℤ) ∣ num :=
          gcd_left_dvd_int num den.natAbs
        have hdvdd : ((Nat.gcd num.natAbs den.natAbs : ℕ) : ℤ) ∣ den :=
          gcd_right_dvd_int num den
        have hsgn : Int.sign den = 1 ∨ Int.sign den = -1 := by
          rcases lt_trichotomy den 0 with hx | hx | hx
          · right; exact Int.sign_eq_neg_one_of_neg hx
          · exact absurd hx hd0
          · left; exact Int.sign_eq_one_of_pos hx
        rw [hg] at hb1 hb2 hb3 ⊢
        have hdd := tdiv_sign_abs_div den (Nat.gcd num.natAbs den.natAbs) hG0 hdvdd hd0
        have hnn := natAbs_tdiv_sign num (Int.sign den) hsgn
          (Nat.gcd num.natAbs den.natAbs) hG0 hdvdn
        rw [hdd] at hb2 hb3 ⊢
        have htu : toU32 ((den.natAbs / Nat.gcd num.natAbs den.natAbs : ℕ) : ℤ)
            = den.natAbs / Nat.gcd num.natAbs den.natAbs := by
          apply toU32_ofNat
          have h9 := Nat.div_le_self den.natAbs (Nat.gcd num.natAbs den.natAbs)
          omega
        rw [htu]
        apply Inv_mk <;> dsimp only
        · omega
        · have habs := hnn
          have hle : (num.tdiv (Int.sign den * (Nat.gcd num.natAbs den.natAbs : ℤ)))
              ≤ ((num.tdiv (Int.sign den * (Nat.gcd num.natAbs den.natAbs : ℤ))).natAbs : ℤ) :=
            Int.le_natAbs
          have hd9 : num.natAbs / Nat.gcd num.natAbs den.natAbs ≤ num.natAbs :=
            Nat.div_le_self _ _
          omega
        · rw [htu] at hb2; omega
        · rw [htu] at hb3; omega
        · rw [hnn]
          exact Nat.coprime_div_gcd_div_gcd hG0

theorem toU32_wrap32_cast (d : ℕ) (h : d < 2 ^ 32) : toU32 (wrap32 (d : ℤ)) = d := by
  unfold toU32 wrap32
  omega

theorem toU32_neg_natCast (G : ℕ) (h1 : 1 ≤ G) (h2 : G ≤ 2 ^ 32) :
    toU32 (-(G : ℤ)) = 2 ^ 32 - G := by
  unfold toU32
  omega

theorem div_dvd_self (x g : ℕ) (h : g ∣ x) : x / g ∣ x :=
  ⟨g, (Nat.div_mul_cancel h).symm⟩

/-- The invariant is preserved by unary negation. -/
theorem Inv_neg {r : Rational} (hr : r.Inv) : (Rational.neg r).Inv := by
  obtain ⟨h1, h2, h3, h4, h5⟩ := Inv_bounds hr
  unfold Rational.neg
  have hw : wrap32 (-r.num) = -r.num :=
    wrap32_neg_i32 r.num (by unfold I32_MIN; omega) (by unfold I32_MAX; omega)
  rw [hw]
  apply Inv_mk <;> dsimp only
  · omega
  · omega
  · omega
  · omega
  · rw [Int.natAbs_neg]
    exact h5

/-- Results of `add` satisfy the bounds invariant: the numerator is a wrapped
`i32` and `check_overflow` enforces the rest.  (`add` does not reduce, so the
full invariant can fail; see the counterexample for C1.) -/
theorem BInv_add {a b r : Rational} (h : Rational.add a b = .ok r) : r.BInv := by
  unfold Rational.add at h
  dsimp only at h
  split at h
  · exact Except.noConfusion h
  · obtain ⟨heq, hc1, hc2, hc3⟩ := check_overflow_ok h
    subst heq
    unfold Rational.BInv
    dsimp only at hc1 hc2 hc3 ⊢
    refine ⟨hc1, ?_, hc2, hc3⟩
    exact (wrap32_mem _).2

/-- Results of `sub` satisfy the bounds invariant. -/
theorem BInv_sub {a b r : Rational} (h : Rational.sub a b = .ok r) : r.BInv := by
  unfold Rational.sub at h
  exact BInv_add h

/-- The direct multiplication strategy of `mul` produces a reduced, in-bounds
result: for `g = gcd(np, dp as i32)` the candidate is
`⟨np / g, dp / (g as u32)⟩` (the denominator division is a `u32` division),
and `check_overflow` accepts only invariant-satisfying values. -/
theorem Inv_mulDirect {np : ℤ} {dp : ℕ} {r : Rational}
    (hnp1 : I32_MIN ≤ np) (hnp2 : np ≤ I32_MAX) (hdp0 : dp ≠ 0) (hdp : dp < 2 ^ 32)
    (h : Rational.check_overflow
      ⟨np.tdiv (gcdRust np (wrap32 (dp : ℤ))), dp / toU32 (gcdRust np (wrap32 (dp : ℤ)))⟩
      = .ok r) : r.Inv := by
  obtain ⟨heq, hc1, hc2, hc3⟩ := check_overflow_ok h
  subst heq
  dsimp only at hc1 hc2 hc3
  unfold I32_MIN at hnp1 hc1
  unfold I32_MAX at hnp2 hc3
  have hmin_eq : I32_MIN = (-2147483648 : ℤ) := rfl
  by_cases hnp0 : np = 0
  · -- zero numerator: g is dp itself, the result is 0/1
    subst hnp0
    have hg : gcdRust 0 (wrap32 (dp : ℤ)) = wrap32 (dp : ℤ) :=
      gcdRust_zero_left _ (wrap32_mem _).1 (wrap32_mem _).2
    rw [hg, Int.zero_tdiv, toU32_wrap32_cast dp hdp, Nat.div_self (by omega)]
    apply Inv_mk <;> dsimp only
    · omega
    · omega
    · omega
    · omega
    · simp
  · by_cases hsmall : dp < 2 ^ 31
    · -- `dp as i32` is positive
      have hwid : wrap32 (dp : ℤ) = (dp : ℤ) := by unfold wrap32; omega
      rw [hwid] at hc1 hc2 hc3 ⊢
      have hdcast0 : ((dp : ℕ) : ℤ) ≠ 0 := by omega
      by_cases hmin : np = I32_MIN
      · -- numerator i32::MIN: g = 2^(trailing zeros of dp)
        subst hmin
        have hg : gcdRust I32_MIN ((dp : ℕ) : ℤ) = 2 ^ tzN (((dp : ℕ) : ℤ)).natAbs :=
          gcdRust_min_left _ (by unfold I32_MIN; omega) (by unfold I32_MAX; omega) hdcast0
        rw [Int.natAbs_ofNat] at hg
        have ht30 : tzN dp ≤ 30 := by
          have h9 := tzN_natAbs_le_30 ((dp : ℕ) : ℤ) hdcast0
            (by unfold I32_MIN; omega) (by unfold I32_MAX; omega)
          rwa [Int.natAbs_ofNat] at h9
        obtain ⟨hdeq, hdodd⟩ := oddPart_spec dp hdp0 (by omega)
        have hnum' := min_tdiv_two_pow (tzN dp) (by omega)
        have htog : toU32 ((2 : ℤ) ^ tzN dp) = 2 ^ tzN dp := by
          have hcast : ((2 : ℤ) ^ tzN dp) = (((2 : ℕ) ^ tzN dp : ℕ) : ℤ) := by
            push_cast; ring
          rw [hcast]
          apply toU32_natCast
          have h9 : (2 : ℕ) ^ tzN dp ≤ 2 ^ 30 := Nat.pow_le_pow_right (by omega) ht30
          omega
        have hdd : dp / 2 ^ tzN dp = oddPart dp := (oddPart_eq_div dp).symm
        rw [hg] at hc1 hc2 hc3 ⊢
        rw [hmin_eq, hnum'] at hc1 ⊢
        rw [htog, hdd] at hc2 hc3 ⊢
        apply Inv_mk <;> dsimp only
        · omega
        · have hp : (0 : ℤ) ≤ (((2 : ℕ) ^ (31 - tzN dp) : ℕ) : ℤ) := Int.natCast_nonneg _
          omega
        · omega
        · omega
        · have habs : (-(((2 : ℕ) ^ (31 - tzN dp) : ℕ) : ℤ)).natAbs = 2 ^ (31 - tzN dp) := by
            rw [Int.natAbs_neg, Int.natAbs_ofNat]
          rw [habs]
          exact coprime_two_pow_of_odd _ _ hdodd
      · -- normal numerator: g = gcd(|np|, dp), plain reduction
        have hmin9 : np ≠ -2147483648 := by rw [← hmin_eq]; exact hmin
        have hg := gcdRust_eq np ((dp : ℕ) : ℤ) (by unfold I32_MIN; omega)
          (by unfold I32_MAX; omega) (by unfold I32_MIN; omega) (by unfold I32_MAX; omega)
          hmin (by unfold I32_MIN; omega)
        rw [if_neg hdcast0, Int.sign_eq_one_of_pos (by omega : (0 : ℤ) < ((dp : ℕ) : ℤ)),
          one_mul, Int.natAbs_ofNat] at hg
        have hG0 : 0 < Nat.gcd np.natAbs dp := Nat.gcd_pos_of_pos_left _ (by omega)
        have hdvdn : ((Nat.gcd np.natAbs dp : ℕ) : ℤ) ∣ np := gcd_left_dvd_int np dp
        have hdvdd : Nat.gcd np.natAbs dp ∣ dp := Nat.gcd_dvd_right _ _
        have hna : (np.tdiv ((Nat.gcd np.natAbs dp : ℕ) : ℤ)).natAbs
            = np.natAbs / Nat.gcd np.natAbs dp :=
          natAbs_tdiv_natCast np _ hG0 hdvdn
        have htog : toU32 ((Nat.gcd np.natAbs dp : ℕ) : ℤ) = Nat.gcd np.natAbs dp := by
          apply toU32_natCast
          have h9 : Nat.gcd np.natAbs dp ≤ dp := Nat.le_of_dvd (by omega) hdvdd
          omega
        rw [hg] at hc1 hc2 hc3 ⊢
        rw [htog] at hc2 hc3 ⊢
        apply Inv_mk <;> dsimp only
        · omega
        · have hq := Nat.div_le_self np.natAbs (Nat.gcd np.natAbs dp)
          omega
        · omega
        · omega
        · rw [hna]
          exact Nat.coprime_div_gcd_div_gcd hG0
    · by_cases hmid : dp = 2 ^ 31
      · -- `dp as i32` is exactly i32::MIN
        subst hmid
        have hwmin : wrap32 (((2 : ℕ) ^ 31 : ℕ) : ℤ) = I32_MIN := by
          unfold wrap32 I32_MIN
          norm_num
        rw [hwmin] at hc1 hc2 hc3 ⊢
        by_cases hmin : np = I32_MIN
        · -- both i32::MIN: result is 1/1
          subst hmin
          rw [gcdRust_min_min, Int.tdiv_self (by unfold I32_MIN; omega : I32_MIN ≠ 0),
            toU32_min, Nat.div_self (by positivity)]
          apply Inv_mk <;> dsimp only
          · omega
          · omega
          · omega
          · omega
          · simp
        · -- g = 2^(trailing zeros of np), denominator 2^(31 - t)
          have hmin9 : np ≠ -2147483648 := by rw [← hmin_eq]; exact hmin
          have hg : gcdRust np I32_MIN = 2 ^ tzN np.natAbs :=
            gcdRust_min_right np (by rw [hmin_eq]; omega) (by unfold I32_MAX; omega) hnp0
          have ht30 : tzN np.natAbs ≤ 30 :=
            tzN_natAbs_le_30 np hnp0 (by rw [hmin_eq]; omega) (by unfold I32_MAX; omega)
          obtain ⟨hneq, hnodd⟩ := oddPart_spec np.natAbs (by omega) (by omega)
          have hcast2 : (((2 : ℕ) ^ tzN np.natAbs : ℕ) : ℤ) = (2 : ℤ) ^ tzN np.natAbs := by
            push_cast; ring
          have hdvd : (((2 : ℕ) ^ tzN np.natAbs : ℕ) : ℤ) ∣ np :=
            Int.natCast_dvd.mpr (Dvd.intro _ hneq.symm)
          have hna : (np.tdiv ((2 : ℤ) ^ tzN np.natAbs)).natAbs
              = np.natAbs / 2 ^ tzN np.natAbs := by
            rw [← hcast2]
            exact natAbs_tdiv_natCast np _ (by positivity) hdvd
          have htog : toU32 ((2 : ℤ) ^ tzN np.natAbs) = 2 ^ tzN np.natAbs := by
            rw [← hcast2]
            apply toU32_natCast
            have h9 : (2 : ℕ) ^ tzN np.natAbs ≤ 2 ^ 30 := Nat.pow_le_pow_right (by omega) ht30
            omega
          rw [hg] at hc1 hc2 hc3 ⊢
          rw [htog, Nat.pow_div (by omega) (by omega)] at hc2 hc3 ⊢
          apply Inv_mk <;> dsimp only
          · omega
          · have hq := Nat.div_le_self np.natAbs (2 ^ tzN np.natAbs)
            omega
          · omega
          · omega
          · rw [hna]
            have hod : np.natAbs / 2 ^ tzN np.natAbs = oddPart np.natAbs :=
              (oddPart_eq_div np.natAbs).symm
            rw [hod]
            exact (coprime_two_pow_of_odd (31 - tzN np.natAbs) _ hnodd).symm
      · -- `dp as i32` is a normal negative value
        have hdpgt : 2 ^ 31 < dp := by omega
        have hw : wrap32 ((dp : ℕ) : ℤ) = ((dp : ℕ) : ℤ) - 4294967296 := by
          unfold wrap32; omega
        rw [hw] at hc1 hc2 hc3 ⊢
        have hWne : (((dp : ℕ) : ℤ) - 4294967296) ≠ 0 := by omega
        have habsW : (((dp : ℕ) : ℤ) - 4294967296).natAbs = 2 ^ 32 - dp := by omega
        by_cases hmin : np = I32_MIN
        · -- numerator i32::MIN: g = 2^t for t the trailing zeros of |dp as i32|
          subst hmin
          have hg : gcdRust I32_MIN (((dp : ℕ) : ℤ) - 4294967296)
              = 2 ^ tzN ((((dp : ℕ) : ℤ) - 4294967296)).natAbs :=
            gcdRust_min_left _ (by rw [hmin_eq]; omega) (by unfold I32_MAX; omega) hWne
          rw [habsW] at hg
          have ht30 : tzN (2 ^ 32 - dp) ≤ 30 := by
            have h9 := tzN_natAbs_le_30 (((dp : ℕ) : ℤ) - 4294967296) hWne
              (by rw [hmin_eq]; omega) (by unfold I32_MAX; omega)
            rwa [habsW] at h9
          obtain ⟨hmeq, hmodd⟩ := oddPart_spec (2 ^ 32 - dp) (by omega) (by omega)
          -- dp has the same trailing-zero count as 2^32 - dp
          have hdvdm : (2 : ℕ) ^ tzN (2 ^ 32 - dp) ∣ (2 ^ 32 - dp) :=
            Dvd.intro _ hmeq.symm
          have hdvd32 : (2 : ℕ) ^ tzN (2 ^ 32 - dp) ∣ 2 ^ 32 := pow_dvd_pow 2 (by omega)
          have htzat : IsTzAt dp (tzN (2 ^ 32 - dp)) := by
            constructor
            · have h9 := Nat.dvd_sub' hdvd32 hdvdm
              rwa [show 2 ^ 32 - (2 ^ 32 - dp) = dp by omega] at h9
            · intro hdvd1
              have hm_tz : IsTzAt (2 ^ 32 - dp) (tzN (2 ^ 32 - dp)) :=
                tzN_spec (2 ^ 32 - dp) (by omega) (by omega)
              apply hm_tz.2
              have hd32' : (2 : ℕ) ^ (tzN (2 ^ 32 - dp) + 1) ∣ 2 ^ 32 :=
                pow_dvd_pow 2 (by omega)
              exact Nat.dvd_sub' hd32' hdvd1
          have htzdp : tzN dp = tzN (2 ^ 32 - dp) := tzN_eq_of htzat hdp0 (by omega)
          obtain ⟨hdpeq, hdpodd⟩ := oddPart_spec dp hdp0 (by omega)
          have hnum' := min_tdiv_two_pow (tzN (2 ^ 32 - dp)) (by omega)
          have htog : toU32 ((2 : ℤ) ^ tzN (2 ^ 32 - dp)) = 2 ^ tzN (2 ^ 32 - dp) := by
            have hcast : ((2 : ℤ) ^ tzN (2 ^ 32 - dp))
                = (((2 : ℕ) ^ tzN (2 ^ 32 - dp) : ℕ) : ℤ) := by push_cast; ring
            rw [hcast]
            apply toU32_natCast
            have h9 : (2 : ℕ) ^ tzN (2 ^ 32 - dp) ≤ 2 ^ 30 :=
              Nat.pow_le_pow_right (by omega) ht30
            omega
          have hdd : dp / 2 ^ tzN (2 ^ 32 - dp) = oddPart dp := by
            rw [← htzdp]
            exact (oddPart_eq_div dp).symm
          rw [hg] at hc1 hc2 hc3 ⊢
          rw [hmin_eq, hnum'] at hc1 ⊢
          rw [htog, hdd] at hc2 hc3 ⊢
          apply Inv_mk <;> dsimp only
          · omega
          · have hp : (0 : ℤ) ≤ (((2 : ℕ) ^ (31 - tzN (2 ^ 32 - dp)) : ℕ) : ℤ) :=
              Int.natCast_nonneg _
            omega
          · omega
          · omega
          · have habs : (-(((2 : ℕ) ^ (31 - tzN (2 ^ 32 - dp)) : ℕ) : ℤ)).natAbs
                = 2 ^ (31 - tzN (2 ^ 32 - dp)) := by
              rw [Int.natAbs_neg, Int.natAbs_ofNat]
            rw [habs]
            exact coprime_two_pow_of_odd _ _ hdpodd
        · -- normal numerator: g is negative, the denominator division gives 1
          have hmin9 : np ≠ -2147483648 := by rw [← hmin_eq]; exact hmin
          have hWneMin : (((dp : ℕ) : ℤ) - 4294967296) ≠ I32_MIN := by
            rw [hmin_eq]; omega
          have hg := gcdRust_eq np (((dp : ℕ) : ℤ) - 4294967296) (by rw [hmin_eq]; omega)
            (by unfold I32_MAX; omega) (by rw [hmin_eq]; omega) (by unfold I32_MAX; omega)
            hmin hWneMin
          rw [if_neg hWne, Int.sign_eq_neg_one_of_neg (by omega), habsW] at hg
          have hneg1 : (-1 : ℤ) * ((Nat.gcd np.natAbs (2 ^ 32 - dp) : ℕ) : ℤ)
              = -((Nat.gcd np.natAbs (2 ^ 32 - dp) : ℕ) : ℤ) := by ring
          rw [hneg1] at hg
          have hG0 : 0 < Nat.gcd np.natAbs (2 ^ 32 - dp) :=
            Nat.gcd_pos_of_pos_left _ (by omega)
          have hGle : Nat.gcd np.natAbs (2 ^ 32 - dp) ≤ 2 ^ 32 - dp :=
            Nat.le_of_dvd (by omega) (Nat.gcd_dvd_right _ _)
          have htog : toU32 (-((Nat.gcd np.natAbs (2 ^ 32 - dp) : ℕ) : ℤ))
              = 2 ^ 32 - Nat.gcd np.natAbs (2 ^ 32 - dp) :=
            toU32_neg_natCast _ hG0 (by omega)
          rw [hg] at hc1 hc2 hc3 ⊢
          rw [htog] at hc2 hc3 ⊢
          have hden2 : dp / (2 ^ 32 - Nat.gcd np.natAbs (2 ^ 32 - dp)) < 2 := by
            rw [Nat.div_lt_iff_lt_mul (by omega)]
            omega
          have hden1 : dp / (2 ^ 32 - Nat.gcd np.natAbs (2 ^ 32 - dp)) = 1 := by omega
          rw [hden1] at hc3 ⊢
          have hdvdn : ((Nat.gcd np.natAbs (2 ^ 32 - dp) : ℕ) : ℤ) ∣ np :=
            gcd_left_dvd_int np (2 ^ 32 - dp)
          have hna : (np.tdiv (-((Nat.gcd np.natAbs (2 ^ 32 - dp) : ℕ) : ℤ))).natAbs
              = np.natAbs / Nat.gcd np.natAbs (2 ^ 32 - dp) := by
            rw [Int.tdiv_neg, Int.natAbs_neg]
            exact natAbs_tdiv_natCast np _ hG0 hdvdn
          apply Inv_mk <;> dsimp only
          · omega
          · have hq := Nat.div_le_self np.natAbs (Nat.gcd np.natAbs (2 ^ 32 - dp))
            omega
          · omega
          · omega
          · simp

theorem gcdRust_zero_right (m : ℤ) (hm1 : I32_MIN ≤ m) (hm2 : m ≤ I32_MAX) :
    gcdRust m 0 = m := by
  unfold gcdRust
  rw [if_pos (Or.inr rfl)]
  have ht0 : toU32 0 = 0 := by unfold toU32; omega
  rw [ht0, Nat.or_zero]
  exact wrap32_toU32 m hm1 hm2

/-- The pre-division (fallback) multiplication strategy of `mul` produces a
reduced, in-bounds result: the cross gcds `n1d2 = gcd(a.num, b.den as i32)`
and `n2d1 = gcd(a.den as i32, b.num)` are divided out before the checked
multiplications, and `check_overflow` accepts the candidate. -/
theorem Inv_mulFallback {a b r : Rational} (ha : a.Inv) (hb : b.Inv) {nn dd : ℤ}
    (hnn : checkedMulI32 (a.num.tdiv (gcdRust a.num (wrap32 ((b.den : ℕ) : ℤ))))
      (b.num.tdiv (gcdRust (wrap32 ((a.den : ℕ) : ℤ)) b.num)) = some nn)
    (hdd : checkedMulI32
      ((wrap32 ((a.den : ℕ) : ℤ)).tdiv (gcdRust (wrap32 ((a.den : ℕ) : ℤ)) b.num))
      ((wrap32 ((b.den : ℕ) : ℤ)).tdiv (gcdRust a.num (wrap32 ((b.den : ℕ) : ℤ)))) = some dd)
    (h : Rational.check_overflow ⟨nn, toU32 dd⟩ = .ok r) : r.Inv := by
  obtain ⟨ha1, ha2, ha3, ha4, ha5⟩ := Inv_bounds ha
  obtain ⟨hb1, hb2, hb3, hb4, hb5⟩ := Inv_bounds hb
  have hwa : wrap32 ((a.den : ℕ) : ℤ) = ((a.den : ℕ) : ℤ) := by unfold wrap32; omega
  have hwb : wrap32 ((b.den : ℕ) : ℤ) = ((b.den : ℕ) : ℤ) := by unfold wrap32; omega
  rw [hwa, hwb] at hnn hdd
  obtain ⟨hnnv, hnn1, hnn2⟩ := checkedMulI32_ok hnn
  obtain ⟨hddv, hdd1, hdd2⟩ := checkedMulI32_ok hdd
  obtain ⟨heq, hc1, hc2, hc3⟩ := check_overflow_ok h
  subst heq
  dsimp only at hc1 hc2 hc3
  unfold I32_MIN at hc1 hnn1 hdd1
  unfold I32_MAX at hc3 hnn2 hdd2
  have hmin_eq : I32_MIN = (-2147483648 : ℤ) := rfl
  have hamin : a.num ≠ I32_MIN := by rw [hmin_eq]; omega
  have hbmin : b.num ≠ I32_MIN := by rw [hmin_eq]; omega
  have hbd0 : ((b.den : ℕ) : ℤ) ≠ 0 := by omega
  have hg1 := gcdRust_eq a.num ((b.den : ℕ) : ℤ) (by rw [hmin_eq]; omega)
    (by unfold I32_MAX; omega) (by rw [hmin_eq]; omega) (by unfold I32_MAX; omega)
    hamin (by rw [hmin_eq]; omega)
  rw [if_neg hbd0, Int.sign_eq_one_of_pos (by omega : (0 : ℤ) < ((b.den : ℕ) : ℤ)),
    one_mul, Int.natAbs_ofNat] at hg1
  rcases lt_trichotomy b.num 0 with hbn | hbn | hbn
  · -- negative b.num: the denominator product is negative, so the u32 cast
    -- pushes it past i32::MAX and check_overflow rejects it
    exfalso
    have hg2 := gcdRust_eq ((a.den : ℕ) : ℤ) b.num (by rw [hmin_eq]; omega)
      (by unfold I32_MAX; omega) (by rw [hmin_eq]; omega) (by unfold I32_MAX; omega)
      (by rw [hmin_eq]; omega) hbmin
    rw [if_neg (by omega : b.num ≠ 0), Int.sign_eq_neg_one_of_neg hbn,
      Int.natAbs_ofNat] at hg2
    have hneg1 : (-1 : ℤ) * ((Nat.gcd a.den b.num.natAbs : ℕ) : ℤ)
        = -((Nat.gcd a.den b.num.natAbs : ℕ) : ℤ) := by ring
    rw [hneg1] at hg2
    by_cases han0 : a.num = 0
    · -- a is 0/1, so the denominator product is -1
      have had1 : a.den = 1 := by
        rw [han0] at ha5
        simpa using ha5
      have hG2v : Nat.gcd a.den b.num.natAbs = 1 := by
        rw [had1]
        exact Nat.gcd_one_left _
      rw [hg2, hG2v, hg1, had1] at hddv
      have hbden : gcdRust 0 ((b.den : ℕ) : ℤ) = ((b.den : ℕ) : ℤ) :=
        gcdRust_zero_left _ (by rw [hmin_eq]; omega) (by unfold I32_MAX; omega)
      have hA2 : (((1 : ℕ) : ℤ)).tdiv (-((1 : ℕ) : ℤ)) = -1 := by norm_num
      have hB2 : (((b.den : ℕ) : ℤ)).tdiv ((Nat.gcd a.num.natAbs b.den : ℕ) : ℤ) = 1 := by
        rw [han0]
        simp only [Int.natAbs_zero, Nat.gcd_zero_left]
        exact Int.tdiv_self hbd0
      rw [hA2, hB2, mul_one] at hddv
      have htogdd : toU32 dd = 4294967295 := by
        rw [hddv]
        unfold toU32
        omega
      rw [htogdd] at hc3
      omega
    · -- general negative case: dd = -(a.den/G2 * b.den/G1) < 0
      have hG10 : 0 < Nat.gcd a.num.natAbs b.den :=
        Nat.gcd_pos_of_pos_left _ (by omega)
      have hG20 : 0 < Nat.gcd a.den b.num.natAbs :=
        Nat.gcd_pos_of_pos_left _ (by omega)
      have hA2 : (((a.den : ℕ) : ℤ)).tdiv (-((Nat.gcd a.den b.num.natAbs : ℕ) : ℤ))
          = -(((a.den / Nat.gcd a.den b.num.natAbs : ℕ) : ℤ)) := by
        rw [Int.tdiv_neg]
        rw [tdiv_natCast_of_pos _ _ (by omega) hG20
          (Int.natCast_dvd_natCast.mpr (Nat.gcd_dvd_left _ _))]
        rw [Int.natAbs_ofNat]
      have hB2 : (((b.den : ℕ) : ℤ)).tdiv ((Nat.gcd a.num.natAbs b.den : ℕ) : ℤ)
          = ((b.den / Nat.gcd a.num.natAbs b.den : ℕ) : ℤ) :=
        tdiv_natCast_of_pos _ _ (by omega) hG10
          (Int.natCast_dvd_natCast.mpr (Nat.gcd_dvd_right _ _))
      rw [hg2, hg1, hA2, hB2] at hddv
      have hq1 : 1 ≤ a.den / Nat.gcd a.den b.num.natAbs :=
        Nat.div_pos (Nat.le_of_dvd (by omega) (Nat.gcd_dvd_left _ _)) hG20
      have hq2 : 1 ≤ b.den / Nat.gcd a.num.natAbs b.den :=
        Nat.div_pos (Nat.le_of_dvd (by omega) (Nat.gcd_dvd_right _ _)) hG10
      have hddn : dd = -(((a.den / Nat.gcd a.den b.num.natAbs)
          * (b.den / Nat.gcd a.num.natAbs b.den) : ℕ) : ℤ) := by
        rw [hddv]
        push_cast
        ring
      have hDle : ((a.den / Nat.gcd a.den b.num.natAbs)
          * (b.den / Nat.gcd a.num.natAbs b.den) : ℕ) ≤ 2 ^ 31 := by
        have h9 : -(((a.den / Nat.gcd a.den b.num.natAbs)
            * (b.den / Nat.gcd a.num.natAbs b.den) : ℕ) : ℤ) ≥ -2147483648 := by
          rw [← hddn]; omega
        omega
      have htogdd : toU32 dd = 2 ^ 32 - ((a.den / Nat.gcd a.den b.num.natAbs)
          * (b.den / Nat.gcd a.num.natAbs b.den) : ℕ) := by
        rw [hddn]
        apply toU32_neg_natCast
        · exact Nat.one_le_iff_ne_zero.mpr (Nat.mul_ne_zero (by omega) (by omega))
        · omega
      rw [htogdd] at hc3
      have hD1 : 1 ≤ ((a.den / Nat.gcd a.den b.num.natAbs)
          * (b.den / Nat.gcd a.num.natAbs b.den) : ℕ) := Nat.one_le_iff_ne_zero.mpr
        (Nat.mul_ne_zero (by omega) (by omega))
      omega
  · -- b.num = 0: b is 0/1 and the result is 0/1
    have hbd1 : b.den = 1 := by
      rw [hbn] at hb5
      simpa using hb5
    rw [hbn, Int.zero_tdiv, mul_zero] at hnnv
    have hadc0 : ((a.den : ℕ) : ℤ) ≠ 0 := by omega
    have hzr : gcdRust ((a.den : ℕ) : ℤ) 0 = ((a.den : ℕ) : ℤ) :=
      gcdRust_zero_right _ (by rw [hmin_eq]; omega) (by unfold I32_MAX; omega)
    rw [hbn, hzr, Int.tdiv_self hadc0, hg1, hbd1] at hddv
    have hB2 : (((1 : ℕ) : ℤ)).tdiv ((Nat.gcd a.num.natAbs 1 : ℕ) : ℤ) = 1 := by
      simp
    rw [hB2, one_mul] at hddv
    have htog1 : toU32 dd = 1 := by
      rw [hddv]
      unfold toU32
      omega
    rw [hnnv, htog1]
    apply Inv_mk <;> dsimp only
    · omega
    · omega
    · omega
    · omega
    · simp
  · -- b.num > 0
    have hg2 := gcdRust_eq ((a.den : ℕ) : ℤ) b.num (by rw [hmin_eq]; omega)
      (by unfold I32_MAX; omega) (by rw [hmin_eq]; omega) (by unfold I32_MAX; omega)
      (by rw [hmin_eq]; omega) hbmin
    rw [if_neg (by omega : b.num ≠ 0), Int.sign_eq_one_of_pos hbn, one_mul,
      Int.natAbs_ofNat] at hg2
    by_cases han0 : a.num = 0
    · -- a is 0/1 and the result is 0/1
      have had1 : a.den = 1 := by
        rw [han0] at ha5
        simpa using ha5
      rw [han0, Int.zero_tdiv, zero_mul] at hnnv
      have hG2v : Nat.gcd a.den b.num.natAbs = 1 := by
        rw [had1]
        exact Nat.gcd_one_left _
      rw [hg2, hG2v, hg1, han0, had1] at hddv
      have hA2 : (((1 : ℕ) : ℤ)).tdiv (((1 : ℕ) : ℤ)) = 1 := by norm_num
      have hB2 : (((b.den : ℕ) : ℤ)).tdiv ((Nat.gcd (0 : ℤ).natAbs b.den : ℕ) : ℤ)
          = 1 := by
        simp only [Int.natAbs_zero, Nat.gcd_zero_left]
        exact Int.tdiv_self hbd0
      rw [hA2, hB2, one_mul] at hddv
      have htog1 : toU32 dd = 1 := by
        rw [hddv]
        unfold toU32
        omega
      rw [hnnv, htog1]
      apply Inv_mk <;> dsimp only
      · omega
      · omega
      · omega
      · omega
      · simp
    · -- the general case: both cross gcds positive, four-way coprimality
      have hG10 : 0 < Nat.gcd a.num.natAbs b.den :=
        Nat.gcd_pos_of_pos_left _ (by omega)
      have hG20 : 0 < Nat.gcd a.den b.num.natAbs :=
        Nat.gcd_pos_of_pos_left _ (by omega)
      have hA1 : (a.num.tdiv ((Nat.gcd a.num.natAbs b.den : ℕ) : ℤ)).natAbs
          = a.num.natAbs / Nat.gcd a.num.natAbs b.den :=
        natAbs_tdiv_natCast _ _ hG10 (gcd_left_dvd_int a.num b.den)
      have hB1 : (b.num.tdiv ((Nat.gcd a.den b.num.natAbs : ℕ) : ℤ)).natAbs
          = b.num.natAbs / Nat.gcd a.den b.num.natAbs :=
        natAbs_tdiv_natCast _ _ hG20
          (Int.natCast_dvd.mpr (Nat.gcd_dvd_right _ _))
      have hA2 : (((a.den : ℕ) : ℤ)).tdiv ((Nat.gcd a.den b.num.natAbs : ℕ) : ℤ)
          = ((a.den / Nat.gcd a.den b.num.natAbs : ℕ) : ℤ) :=
        tdiv_natCast_of_pos _ _ (by omega) hG20
          (Int.natCast_dvd_natCast.mpr (Nat.gcd_dvd_left _ _))
      have hB2 : (((b.den : ℕ) : ℤ)).tdiv ((Nat.gcd a.num.natAbs b.den : ℕ) : ℤ)
          = ((b.den / Nat.gcd a.num.natAbs b.den : ℕ) : ℤ) :=
        tdiv_natCast_of_pos _ _ (by omega) hG10
          (Int.natCast_dvd_natCast.mpr (Nat.gcd_dvd_right _ _))
      rw [hg1, hg2] at hnnv
      rw [hg1, hg2, hA2, hB2] at hddv
      have hddn : dd = (((a.den / Nat.gcd a.den b.num.natAbs)
          * (b.den / Nat.gcd a.num.natAbs b.den) : ℕ) : ℤ) := by
        rw [hddv]
        push_cast
        ring
      have htog : toU32 dd = (a.den / Nat.gcd a.den b.num.natAbs)
          * (b.den / Nat.gcd a.num.natAbs b.den) := by
        rw [hddn]
        apply toU32_natCast
        have h9 : (((a.den / Nat.gcd a.den b.num.natAbs)
            * (b.den / Nat.gcd a.num.natAbs b.den) : ℕ) : ℤ) ≤ 2147483647 := by
          rw [← hddn]; omega
        omega
      rw [htog] at hc2 hc3 ⊢
      apply Inv_mk <;> dsimp only
      · omega
      · omega
      · omega
      · omega
      · rw [hnnv, Int.natAbs_mul, hA1, hB1]
        have c11 : Nat.Coprime (a.num.natAbs / Nat.gcd a.num.natAbs b.den)
            (a.den / Nat.gcd a.den b.num.natAbs) :=
          Nat.Coprime.coprime_dvd_left (div_dvd_self _ _ (Nat.gcd_dvd_left _ _))
            (Nat.Coprime.coprime_dvd_right
              (div_dvd_self _ _ (Nat.gcd_dvd_left _ _)) ha5)
        have c12 : Nat.Coprime (a.num.natAbs / Nat.gcd a.num.natAbs b.den)
            (b.den / Nat.gcd a.num.natAbs b.den) :=
          Nat.coprime_div_gcd_div_gcd hG10
        have c21 : Nat.Coprime (b.num.natAbs / Nat.gcd a.den b.num.natAbs)
            (a.den / Nat.gcd a.den b.num.natAbs) :=
          (Nat.coprime_div_gcd_div_gcd hG20).symm
        have c22 : Nat.Coprime (b.num.natAbs / Nat.gcd a.den b.num.natAbs)
            (b.den / Nat.gcd a.num.natAbs b.den) :=
          Nat.Coprime.coprime_dvd_left (div_dvd_self _ _ (Nat.gcd_dvd_right _ _))
            (Nat.Coprime.coprime_dvd_right
              (div_dvd_self _ _ (Nat.gcd_dvd_right _ _)) hb5)
        exact Nat.Coprime.mul (Nat.Coprime.mul_right c11 c12)
          (Nat.Coprime.mul_right c21 c22)

/-- The invariant is preserved by `mul` (both strategies). -/
theorem Inv_mul {a b r : Rational} (ha : a.Inv) (hb : b.Inv)
    (h : Rational.mul a b = .ok r) : r.Inv := by
  unfold Rational.mul at h
  dsimp only at h
  split at h
  · rename_i np dp hnp hdp
    obtain ⟨hnpv, hnp1, hnp2⟩ := checkedMulI32_ok hnp
    obtain ⟨hdpv, hdplt⟩ := checkedMulU32_ok hdp
    have hdp0 : dp ≠ 0 := by
      obtain ⟨_, _, ha3, _, _⟩ := ha
      obtain ⟨_, _, hb3, _, _⟩ := hb
      rw [hdpv]
      exact Nat.mul_ne_zero (by omega) (by omega)
    exact Inv_mulDirect hnp1 hnp2 hdp0 hdplt h
  · rename_i hmiss
    split at h
    · rename_i nn dd hnn hdd
      exact Inv_mulFallback ha hb hnn hdd h
    · exact Except.noConfusion h

theorem except_bind_ok {e a b : Type} (x : a) (f : a → Except e b) :
    (Except.ok x : Except e a) >>= f = f x := rfl

theorem except_bind_ok2 {e a b : Type} (x : a) (f : a → Except e b) :
    (Except.ok x : Except e a).bind f = f x := rfl

/-- The invariant is preserved by `div` (`mul` with the reciprocal). -/
theorem Inv_div {a b r : Rational} (ha : a.Inv) (hb : b.Inv)
    (h : Rational.div a b = .ok r) : r.Inv := by
  unfold Rational.div at h
  rcases hrec : Rational.recip b with e | rb
  · rw [hrec] at h
    exact Except.noConfusion h
  · rw [hrec] at h
    rw [except_bind_ok2] at h
    exact Inv_mul ha (Inv_recip hb hrec) h

/-- The invariant is preserved by the positive-exponent power loop. -/
theorem Inv_powPos {r : Rational} {e : ℕ} {r' : Rational} (hr : r.Inv)
    (h : Rational.powPos r e = .ok r') : r'.Inv := by
  obtain ⟨h1, h2, h3, h4, h5⟩ := Inv_bounds hr
  unfold Rational.powPos at h
  rcases hnum : checkedPow r.num e with enum | vnum
  · rw [hnum] at h
    exact Except.noConfusion h
  rw [hnum] at h
  rw [except_bind_ok] at h
  rcases hden : checkedPow (wrap32 ((r.den : ℕ) : ℤ)) e with eden | vden
  · rw [hden] at h
    exact Except.noConfusion h
  rw [hden] at h
  rw [except_bind_ok] at h
  obtain ⟨heq, hc1, hc2, hc3⟩ := check_overflow_ok h
  subst heq
  dsimp only at hc1 hc2 hc3
  obtain ⟨hvn, hvn1, hvn2⟩ := checkedPow_ok hnum
  obtain ⟨hvd, hvd1, hvd2⟩ := checkedPow_ok hden
  have hwd : wrap32 ((r.den : ℕ) : ℤ) = ((r.den : ℕ) : ℤ) := by
    unfold wrap32
    omega
  have hvd' : vden = ((r.den ^ e : ℕ) : ℤ) := by
    rw [hvd, hwd]
    push_cast
    ring
  have htog : toU32 vden = r.den ^ e := by
    rw [hvd']
    apply toU32_natCast
    have h9 : ((r.den ^ e : ℕ) : ℤ) ≤ 2147483647 := by
      rw [← hvd']
      unfold I32_MAX at hvd2
      omega
    omega
  unfold I32_MIN at hc1
  unfold I32_MAX at hc3 hvn2
  rw [htog] at hc2 hc3 ⊢
  apply Inv_mk <;> dsimp only
  · omega
  · omega
  · omega
  · omega
  · rw [hvn, Int.natAbs_pow]
    exact Nat.Coprime.pow _ _ h5

/-- The invariant is preserved by `pow` for every `i32` exponent. -/
theorem Inv_pow {r : Rational} {e : ℤ} {r' : Rational} (hr : r.Inv)
    (h : Rational.pow r e = .ok r') : r'.Inv := by
  unfold Rational.pow at h
  split at h
  · split at h
    · exact Inv_powPos hr h
    · split at h
      · rcases hp : Rational.powPos r (-e).toNat with ep | rp
        · rw [hp] at h
          exact Except.noConfusion h
        · rw [hp] at h
          rw [except_bind_ok2] at h
          exact Inv_recip (Inv_powPos hr hp) h
      · split at h
        · injection h with h9
          subst h9
          decide
        · exact Except.noConfusion h
  · injection h with h9
    subst h9
    decide

/-!
Spec-side statement of the promotion semantics (for the refinement claim):
this definition follows the spec's words, to be compared with the
source-derived `Value.add`/`sub`/`mul`/`div`. -/

/-- Written from the spec: when both operands are Exact, attempt the exact
operation; on OverflowError, re-attempt using floats and store Inexact,
unless the float result is NaN, in which case return DomainError; when any
operand is Inexact, the operation is done in floats directly. -/
def promoteSpec (rop : Rational → Rational → Except OverflowError Rational)
    (fop : F → F → F) (a b : Value) : Except ArithmeticError Value :=
  match a, b with
  | .Exact x, .Exact y =>
    match rop x y with
    | .ok r => .ok (.Exact r)
    | .error _ =>
      if (fop a.as_float b.as_float).isNan then .error .domainError
      else .ok (.Inexact (fop a.as_float b.as_float))
  | _, _ =>
    if (fop a.as_float b.as_float).isNan then .error .domainError
    else .ok (.Inexact (fop a.as_float b.as_float))

theorem from_inexact_if (f : F) :
    Value.from_inexact f
      = if f.isNan then .error .domainError else .ok (.Inexact f) := by
  unfold Value.from_inexact
  cases hf : f.isNan <;> simp [hf]

theorem promote_general (rop : Rational → Rational → Except OverflowError Rational)
    (fop : F → F → F) (vop : Value → Value → Except ArithmeticError Value)
    (hEE : ∀ x y, vop (.Exact x) (.Exact y) =
      match rop x y with
      | .ok r => .ok (.Exact r)
      | .error _ =>
        Value.from_inexact (fop (Value.Exact x).as_float (Value.Exact y).as_float))
    (hI1 : ∀ f b, vop (.Inexact f) b =
      Value.from_inexact (fop (Value.Inexact f).as_float b.as_float))
    (hI2 : ∀ x g, vop (.Exact x) (.Inexact g) =
      Value.from_inexact (fop (Value.Exact x).as_float (Value.Inexact g).as_float))
    (a b : Value) : vop a b = promoteSpec rop fop a b := by
  cases a with
  | Inexact f =>
    cases b <;> (rw [hI1]; exact from_inexact_if _)
  | Exact x =>
    cases b with
    | Inexact g =>
      rw [hI2]
      exact from_inexact_if _
    | Exact y =>
      have hmid : promoteSpec rop fop (.Exact x) (.Exact y)
          = match rop x y with
            | .ok r => .ok (.Exact r)
            | .error _ =>
              if (fop (Value.Exact x).as_float (Value.Exact y).as_float).isNan
              then .error .domainError
              else .ok (.Inexact (fop (Value.Exact x).as_float
                (Value.Exact y).as_float)) := rfl
      rw [hEE, hmid]
      rcases hxy : rop x y with e | r
      · exact from_inexact_if _
      · rfl

/-!
Claim theorems.  Kernel evaluation of the rational-number operations needs
the arithmetic on `ℚ` to be reducible. -/

set_option allowUnsafeReducibility true

attribute [local semireducible] Rat.mul Rat.add Rat.sub Rat.neg Rat.inv Rat.div

/-- C1 (amended): every public `Rational` operation produces values
satisfying the bounds part of the documented invariant
(`num > i32::MIN`, `1 ≤ den ≤ i32::MAX`), and every operation except `add`
and `sub` also produces reduced values (`gcd(|num|, den) = 1`); `add` and
`sub` do not reduce their result. -/
theorem spec2proof_c1 :
    (∀ (i : ℤ) (r : Rational), i ≤ I32_MAX →
      Rational.from_integer i = .ok r → r.Inv) ∧
    (∀ (num den : ℤ) (r : Rational), den ≠ 0 → I32_MIN ≤ num → num ≤ I32_MAX →
      I32_MIN ≤ den → den ≤ I32_MAX → Rational.new num den = .ok r → r.Inv) ∧
    (∀ (a r : Rational), a.Inv → Rational.recip a = .ok r → r.Inv) ∧
    (∀ (a : Rational) (e : ℤ) (r : Rational), a.Inv →
      Rational.pow a e = .ok r → r.Inv) ∧
    (∀ (a b r : Rational), a.Inv → b.Inv → Rational.mul a b = .ok r → r.Inv) ∧
    (∀ (a b r : Rational), a.Inv → b.Inv → Rational.div a b = .ok r → r.Inv) ∧
    (∀ a : Rational, a.Inv → (Rational.neg a).Inv) ∧
    (∀ (a b r : Rational), Rational.add a b = .ok r → r.BInv) ∧
    (∀ (a b r : Rational), Rational.sub a b = .ok r → r.BInv) :=
  ⟨fun _ _ h2 h => Inv_from_integer h2 h,
   fun _ _ _ hd0 h1 h2 h3 h4 h => Inv_new hd0 h1 h2 h3 h4 h,
   fun _ _ ha h => Inv_recip ha h,
   fun _ _ _ ha h => Inv_pow ha h,
   fun _ _ _ ha hb h => Inv_mul ha hb h,
   fun _ _ _ ha hb h => Inv_div ha hb h,
   fun _ ha => Inv_neg ha,
   fun _ _ _ h => BInv_add h,
   fun _ _ _ h => BInv_sub h⟩

/-- C1 counterexample: `add` of two invariant-satisfying rationals returns
an unreduced value (`1/2 + 1/2 = 2/2`), so the public type does hold
unreduced values. -/
theorem spec2proof_c1_counterexample :
    Rational.add ⟨1, 2⟩ ⟨1, 2⟩ = .ok ⟨2, 2⟩ ∧ (⟨1, 2⟩ : Rational).Inv ∧
      ¬(⟨2, 2⟩ : Rational).Inv := by decide

/-- C2 (code bug): the input `1/0` evaluates to `Inexact(+inf)`, not to the
`DivideByZero` error the spec's table promises: `Rational::recip` of zero
returns `OverflowError`, and `Value::div` then falls back to float division
`1.0 / 0.0 = +inf` and stores `Inexact`; `DivideByZeroError` is declared but
never constructed anywhere in the sources. -/
theorem spec2proof_c2 :
    calculate "1/0" = .ok (.Value ⟨.Inexact (F.inf false), UnitVec.zero⟩) ∧
    Rational.recip ⟨0, 1⟩ = .error .overflowError ∧
    Value.div (.Exact ⟨1, 1⟩) (.Exact ⟨0, 1⟩) = .ok (.Inexact (F.inf false)) :=
  ⟨rfl, by decide, by decide⟩

/-- C3: each binary `Value` operation implements exactly the spec's
promotion semantics (exact attempt, float fallback on overflow, NaN to
DomainError, floats directly when an operand is Inexact), stated as equality
with the spec-worded `promoteSpec`. -/
theorem spec2proof_c3 (a b : Value) :
    Value.add a b = promoteSpec Rational.add fadd a b ∧
    Value.sub a b = promoteSpec Rational.sub fsub a b ∧
    Value.mul a b = promoteSpec Rational.mul fmul a b ∧
    Value.div a b = promoteSpec Rational.div fdiv a b :=
  ⟨promote_general _ _ _ (fun _ _ => rfl) (fun _ _ => rfl) (fun _ _ => rfl) a b,
   promote_general _ _ _ (fun _ _ => rfl) (fun _ _ => rfl) (fun _ _ => rfl) a b,
   promote_general _ _ _ (fun _ _ => rfl) (fun _ _ => rfl) (fun _ _ => rfl) a b,
   promote_general _ _ _ (fun _ _ => rfl) (fun _ _ => rfl) (fun _ _ => rfl) a b⟩

/-- C4 (code bug): `Value::from_float` does not always store Inexact for
non-NaN input; it performs the exact 1/8-multiple attempt itself
(`from_float(1.0) = Exact(1/1)`), and is identical to the spec's
`from_input` conversion. -/
theorem spec2proof_c4 :
    Value.from_float (F.fin 1) = .ok (.Exact ⟨1, 1⟩) ∧
    (∀ f, Value.from_float f = Value.from_input f) :=
  ⟨by decide, fun _ => rfl⟩

/-- C5 (amended): `UnitValue` addition and subtraction succeed only with
equal units and preserve the left unit; unequal units give `UnitError`; and
with equal units they succeed exactly when the underlying `Value` operation
succeeds (ok results are wrapped with the left unit, errors are propagated
unchanged).  Success is not equivalent to unit equality alone: the value
operation can fail, see the counterexample. -/
theorem spec2proof_c5 (a b : UnitValue) :
    (∀ r, UnitValue.add a b = .ok r → a.unit = b.unit ∧ r.unit = a.unit) ∧
    (∀ r, UnitValue.sub a b = .ok r → a.unit = b.unit ∧ r.unit = a.unit) ∧
    (a.unit ≠ b.unit → UnitValue.add a b = .error .unitError ∧
      UnitValue.sub a b = .error .unitError) ∧
    (a.unit = b.unit → ∀ v, Value.add a.value b.value = .ok v →
      UnitValue.add a b = .ok ⟨v, a.unit⟩) ∧
    (a.unit = b.unit → ∀ v, Value.sub a.value b.value = .ok v →
      UnitValue.sub a b = .ok ⟨v, a.unit⟩) ∧
    (a.unit = b.unit → ∀ e, Value.add a.value b.value = .error e →
      UnitValue.add a b = .error e) ∧
    (a.unit = b.unit → ∀ e, Value.sub a.value b.value = .error e →
      UnitValue.sub a b = .error e) := by
  refine ⟨?_, ?_, ?_, ?_, ?_, ?_, ?_⟩
  · intro r h
    unfold UnitValue.add at h
    by_cases hu : a.unit = b.unit
    · rw [if_pos hu] at h
      rcases hv : Value.add a.value b.value with e | v
      · rw [hv] at h
        exact Except.noConfusion h
      · rw [hv, except_bind_ok] at h
        injection h with h9
        subst h9
        exact ⟨hu, rfl⟩
    · rw [if_neg hu] at h
      exact Except.noConfusion h
  · intro r h
    unfold UnitValue.sub at h
    by_cases hu : a.unit = b.unit
    · rw [if_pos hu] at h
      rcases hv : Value.sub a.value b.value with e | v
      · rw [hv] at h
        exact Except.noConfusion h
      · rw [hv, except_bind_ok] at h
        injection h with h9
        subst h9
        exact ⟨hu, rfl⟩
    · rw [if_neg hu] at h
      exact Except.noConfusion h
  · intro hu
    constructor
    · unfold UnitValue.add
      rw [if_neg hu]
    · unfold UnitValue.sub
      rw [if_neg hu]
  · intro hu v hv
    unfold UnitValue.add
    rw [if_pos hu, hv, except_bind_ok]
    rfl
  · intro hu v hv
    unfold UnitValue.sub
    rw [if_pos hu, hv, except_bind_ok]
    rfl
  · intro hu e hv
    unfold UnitValue.add
    rw [if_pos hu, hv]
    rfl
  · intro hu e hv
    unfold UnitValue.sub
    rw [if_pos hu, hv]
    rfl

/-- C5 counterexample: equal (dimensionless) units but the addition fails
with DomainError, because `inf + (-inf)` is NaN; success is therefore not
equivalent to unit equality. -/
theorem spec2proof_c5_counterexample :
    (⟨Value.Inexact (F.inf false), UnitVec.zero⟩ : UnitValue).unit
      = (⟨Value.Inexact (F.inf true), UnitVec.zero⟩ : UnitValue).unit ∧
    UnitValue.add ⟨Value.Inexact (F.inf false), UnitVec.zero⟩
      ⟨Value.Inexact (F.inf true), UnitVec.zero⟩ = .error .domainError := by
  decide

/-- C6 (amended): `UnitValue::pow` gives UnitError for a unit-bearing
exponent; for a dimensionless base it applies the `Value` power; for a
unit-bearing base it requires an exact exponent (`get_exact`), but the
`Value` power is evaluated before the unit scaling, so a value error (such
as DomainError) takes precedence over the unit check, and the integrality
of the exponent is enforced by the unit scaling (`UnitVec.mul`), which
rejects non-integers with UnitError. -/
theorem spec2proof_c6 (a b : UnitValue) :
    (b.unitless = false → UnitValue.pow a b = .error .unitError) ∧
    (b.unitless = true → a.unitless = true →
      UnitValue.pow a b =
        match Value.pow a.value b.value with
        | .ok v => .ok ⟨v, UnitVec.zero⟩
        | .error e => .error e) ∧
    (b.unitless = true → a.unitless = false → b.value.get_exact = none →
      UnitValue.pow a b = .error .unitError) ∧
    (b.unitless = true → a.unitless = false →
      ∀ e, b.value.get_exact = some e →
      ∀ err, Value.pow a.value b.value = .error err →
        UnitValue.pow a b = .error err) ∧
    (b.unitless = true → a.unitless = false →
      ∀ e, b.value.get_exact = some e →
      ∀ v, Value.pow a.value b.value = .ok v →
        UnitValue.pow a b =
          match UnitVec.mul a.unit e with
          | .ok u => .ok ⟨v, u⟩
          | .error er => .error er) ∧
    (∀ e1 : Rational, e1.is_integer = false →
      UnitVec.mul a.unit e1 = .error .unitError) := by
  refine ⟨?_, ?_, ?_, ?_, ?_, ?_⟩
  · intro hb
    unfold UnitValue.pow
    rw [hb]
    rfl
  · intro hb ha1
    unfold UnitValue.pow
    rw [hb, ha1]
    rcases hv : Value.pow a.value b.value with e | v <;> rfl
  · intro hb ha1 hge
    unfold UnitValue.pow
    rw [hb, ha1, hge]
    rfl
  · intro hb ha1 e hge err hverr
    unfold UnitValue.pow
    rw [hb, ha1, hge, hverr]
    rfl
  · intro hb ha1 e hge v hv
    have hstep : UnitValue.pow a b
        = (UnitVec.mul a.unit e) >>= fun u => pure ⟨v, u⟩ := by
      unfold UnitValue.pow
      rw [hb, ha1, hge, hv]
      rfl
    rw [hstep]
    rcases hu : UnitVec.mul a.unit e with er | u <;> rfl
  · intro e1 he
    unfold UnitVec.mul
    rw [he]
    rfl

/-- C6 counterexample: dimensionless exact non-integer exponent `1/2` on a
unit-bearing base `-1` yields `DomainError` (from the float fallback
`(-1)^0.5 = NaN` computed before the unit check), not the `UnitError` the
spec's branch description promises. -/
theorem spec2proof_c6_counterexample :
    (⟨Value.Exact ⟨1, 2⟩, UnitVec.zero⟩ : UnitValue).unitless = true ∧
    (⟨Value.Exact ⟨-1, 1⟩, ⟨[1, 0, 0, 0, 0, 0, 0]⟩⟩ : UnitValue).unitless = false ∧
    UnitValue.pow ⟨Value.Exact ⟨-1, 1⟩, ⟨[1, 0, 0, 0, 0, 0, 0]⟩⟩
      ⟨Value.Exact ⟨1, 2⟩, UnitVec.zero⟩ = .error .domainError := by
  decide

/-- C7: one folding step absorbs an `Error` operand of every binary
operator: a right `Error` wins unconditionally, and otherwise a left
`Error` wins (the source's pattern-match order). -/
theorem spec2proof_c7 (k : ArithmeticError) (x y : Expression) :
    (simplify1 (.Exp x (.Error k)) = .Error k ∧
     simplify1 (.Mul x (.Error k)) = .Error k ∧
     simplify1 (.Div x (.Error k)) = .Error k ∧
     simplify1 (.Add x (.Error k)) = .Error k ∧
     simplify1 (.Sub x (.Error k)) = .Error k) ∧
    (y.is_error = false →
     simplify1 (.Exp (.Error k) y) = .Error k ∧
     simplify1 (.Mul (.Error k) y) = .Error k ∧
     simplify1 (.Div (.Error k) y) = .Error k ∧
     simplify1 (.Add (.Error k) y) = .Error k ∧
     simplify1 (.Sub (.Error k) y) = .Error k) := by
  constructor
  · refine ⟨?_, ?_, ?_, ?_, ?_⟩ <;> cases x <;> rfl
  · intro hy
    refine ⟨?_, ?_, ?_, ?_, ?_⟩ <;>
      cases y <;> first | rfl | simp [Expression.is_error] at hy

/-- C8: implied multiplication binds tighter than division while a
whitespace-separated one parses at factor level: `1/2(4)` is exactly `1/8`
and `1/2 (4)` is exactly `2`. -/
theorem spec2proof_c8 :
    calculate "1/2(4)" = .ok (.Value ⟨.Exact ⟨1, 8⟩, UnitVec.zero⟩) ∧
    calculate "1/2 (4)" = .ok (.Value ⟨.Exact ⟨2, 1⟩, UnitVec.zero⟩) :=
  ⟨rfl, rfl⟩

/-- C9 (amended): away from `i32::MIN` arguments, `gcd(m, n)` has the sign
of `n`, or the sign of `m` when `n = 0`.  (With an `i32::MIN` argument the
sign discipline fails, see the counterexample.) -/
theorem spec2proof_c9 (m n : ℤ) (hm1 : I32_MIN ≤ m) (hm2 : m ≤ I32_MAX)
    (hn1 : I32_MIN ≤ n) (hn2 : n ≤ I32_MAX) (hmm : m ≠ I32_MIN)
    (hnm : n ≠ I32_MIN) :
    (n ≠ 0 → Int.sign (gcdRust m n) = Int.sign n) ∧
    (n = 0 → Int.sign (gcdRust m n) = Int.sign m) := by
  constructor
  · intro hn0
    rw [gcdRust_eq m n hm1 hm2 hn1 hn2 hmm hnm, if_neg hn0]
    have hG : 0 < Nat.gcd m.natAbs n.natAbs :=
      Nat.gcd_pos_of_pos_right _ (by omega)
    have hsg : Int.sign ((Nat.gcd m.natAbs n.natAbs : ℕ) : ℤ) = 1 :=
      Int.sign_eq_one_of_pos (by exact_mod_cast hG)
    rw [Int.sign_mul, hsg, mul_one, Int.sign_sign]
  · intro hn0
    subst hn0
    rw [gcdRust_zero_right m hm1 hm2]

/-- C9 witness: at `m = 4`, `n = -6` the result sign is the sign of `n`. -/
theorem spec2proof_c9_witness :
    Int.sign (gcdRust 4 (-6)) = Int.sign (-6) :=
  (spec2proof_c9 4 (-6) (by decide) (by decide) (by decide) (by decide)
    (by decide) (by decide)).1 (by decide)

/-- C9 counterexample: `gcd(i32::MIN, -2) = 2`, which is positive while `n`
is negative: the `i32::MIN` branch returns an unsigned power of two and
breaks the sign discipline. -/
theorem spec2proof_c9_counterexample :
    gcdRust I32_MIN (-2) = 2 ∧
      Int.sign (gcdRust I32_MIN (-2)) ≠ Int.sign (-2) := by decide

/-- C10: for every invariant-satisfying `Rational` with nonzero numerator,
`recip` succeeds, its result satisfies the invariant, and `recip` is an
involution. -/
theorem spec2proof_c10 (r : Rational) (hr : r.Inv) (h0 : r.num ≠ 0) :
    ∃ r', Rational.recip r = .ok r' ∧ r'.Inv ∧ Rational.recip r' = .ok r := by
  rcases hrec : Rational.recip r with e | r'
  · exfalso
    unfold Rational.recip at hrec
    by_cases h1 : 0 < r.num
    · rw [if_pos h1] at hrec
      exact Except.noConfusion hrec
    · rw [if_neg h1] at hrec
      by_cases h2 : r.num ≠ 0
      · rw [if_pos h2] at hrec
        exact Except.noConfusion hrec
      · exact absurd h0 (by simpa using h2)
  · exact ⟨r', rfl, Inv_recip hr hrec, recip_recip hr hrec⟩

/-- C10 witness: the reciprocal chain at `-3/2`. -/
theorem spec2proof_c10_witness :
    ∃ r', Rational.recip ⟨-3, 2⟩ = .ok r' ∧ r'.Inv ∧
      Rational.recip r' = .ok ⟨-3, 2⟩ :=
  spec2proof_c10 ⟨-3, 2⟩ (by decide) (by decide)
